import Mathlib

/-!
Verification of the import-resolution core of a GraphQL schema toolkit.

The development shallowly embeds `packages/core/src/import-parser/index.ts`:
the import-line grammar (two JavaScript regular expressions), the SDL
directive extractor, the path resolver, the definition projector, the
recursive traversal engine and the cross-file merger.  JavaScript strings
are modelled as `List Char`; the regular expressions are hand-compiled into
deterministic backtracking matchers whose search order mirrors the greedy
left-to-right semantics of the JavaScript engine; thrown errors are
`Except.error`; the in-place mutations performed by the source are modelled
by returning the updated values.
-/

/-- JavaScript strings are modelled as lists of characters. -/
abbrev Str := List Char

/-- The whitespace characters of the JavaScript `\s` class and
`String.prototype.trim`: the ASCII whitespace, NBSP, the Unicode space
separators (Zs), the line separators U+2028/U+2029 and the BOM. -/
def wsChar (c : Char) : Bool :=
  c = ' ' || c = '\t' || c = '\n' || c = '\r' || c = '\x0b' || c = '\x0c' ||
    c = '\u00A0' || c = '\u1680' || (0x2000 ≤ c.toNat && c.toNat ≤ 0x200A) ||
    c = '\u2028' || c = '\u2029' || c = '\u202F' || c = '\u205F' ||
    c = '\u3000' || c = '\uFEFF'

/-- The characters matched by the JavaScript `.` (no `s` flag): everything
except the four LineTerminator characters LF, CR, U+2028 and U+2029. -/
def dotChar (c : Char) : Bool :=
  !(c = '\n' || c = '\r' || c = '\u2028' || c = '\u2029')

/-- The characters matched by the `('|")` groups of the import regexes. -/
def quoteChar (c : Char) : Bool := c = '\'' || c = '\"'

/-- JavaScript `String.prototype.trim`. -/
def trimChars (s : Str) : Str :=
  ((s.dropWhile wsChar).reverse.dropWhile wsChar).reverse

/-- JavaScript `String.prototype.split` with a one-character separator
(`''.split(sep)` is `['']`, so the result is never empty). -/
def splitChar (sep : Char) : Str → List Str
  | [] => [[]]
  | c :: cs =>
    if c = sep then [] :: splitChar sep cs
    else
      match splitChar sep cs with
      | [] => [[c]]
      | t :: ts => (c :: t) :: ts

/-- JavaScript `String.prototype.replace` with the string pattern `'#'`:
only the first occurrence of `'#'` is removed. -/
def replaceFirstHash : Str → Str
  | [] => []
  | c :: cs => if c = '#' then cs else c :: replaceFirstHash cs

/-- Backtracking search of the regex engine: candidate choice sizes are
tried from `n` downwards and the first success wins (greedy semantics). -/
def searchDesc (f : Nat → Option α) : Nat → Option α
  | 0 => f 0
  | n + 1 =>
    match f (n + 1) with
    | some v => some v
    | none => searchDesc f n

/-- `RawModule` from the source: the information of one import line.  The
source field `from` is a Lean keyword and is called `from'` here. -/
structure RawModule where
  imports : List String
  from' : String
deriving DecidableEq

deriving instance DecidableEq for Except

/-- Matcher for `(.*)('|");?$`: the greedy `(.*)` (which cannot cross a
line terminator) first tries to leave a single quote character, then a
quote character followed by `;`; `$` admits nothing further, so there are
no other candidates. -/
def matchContent (s : Str) : Option Str :=
  match s.reverse with
  | [] => none
  | c :: r =>
    if quoteChar c && r.all dotChar then some r.reverse
    else if c = ';' then
      match r with
      | [] => none
      | q :: r2 => if quoteChar q && r2.all dotChar then some r2.reverse else none
    else none

/-- Matcher for `\s+('|")(.*)('|");?$`.  The `\s+` run is greedy, and since
a quote character is not whitespace only the maximal run can match, so the
run is deterministic. -/
def matchQuoted (s : Str) : Option Str :=
  let s1 := s.dropWhile wsChar
  if s1.length = s.length then none
  else
    match s1 with
    | [] => none
    | q :: rest => if quoteChar q then matchContent rest else none

/-- Matcher for the tail `\s+from\s+('|")(.*)('|");?$` shared by the two
regexes.  Neither `f` (of the literal `from`) nor a quote character
is whitespace, so both `\s+` runs are forced to be the maximal runs. -/
def matchFromSuffix (s : Str) : Option Str :=
  let s1 := s.dropWhile wsChar
  if s1.length = s.length then none
  else if ("from".data).isPrefixOf s1 then matchQuoted (s1.drop 4)
  else none

/-- The capture groups of a successful `IMPORT_FROM_REGEX` match that the
source reads: `matches[1]`, `matches[2]` (absent when the `\*` alternative
matched) and `matches[4]`. -/
structure FromMatch where
  m1 : Str
  m2 : Option Str
  m4 : Str
deriving DecidableEq

/-- The `\*` alternative of `IMPORT_FROM_REGEX` at a fixed `\s+` run: a
literal `*` followed by the shared `from` tail. -/
def starAlt (s : Str) : Option FromMatch :=
  match s with
  | '*' :: rest =>
    match matchFromSuffix rest with
    | some frm => some ⟨['*'], none, frm⟩
    | none => none
  | _ => none

/-- The `(.*)` alternative of `IMPORT_FROM_REGEX` at a fixed `\s+` run `r`
and capture length `p`: the capture (groups 1 and 2) followed by the shared
`from` tail. -/
def dotAlt (r : Str) (p : Nat) : Option FromMatch :=
  match matchFromSuffix (r.drop p) with
  | some frm => some ⟨r.take p, some (r.take p), frm⟩
  | none => none

/-- One candidate of the greedy `(.*)` search: the capture cannot cross a
line terminator, so lengths beyond the first one are not candidates. -/
def dotCand (r : Str) (p : Nat) : Option FromMatch :=
  if p > (r.takeWhile dotChar).length then none else dotAlt r p

/-- One candidate of the greedy leading `\s+` of `IMPORT_FROM_REGEX`: at run
length `k`, the `\*` alternative is tried before the greedy `(.*)`
alternative (the alternation order of the regex). -/
def fromAtK (s : Str) (k : Nat) : Option FromMatch :=
  if k = 0 then none
  else
    match starAlt ((s.drop 6).drop k) with
    | some m => some m
    | none =>
      searchDesc (dotCand ((s.drop 6).drop k))
        (((s.drop 6).drop k).takeWhile dotChar).length

/-- Matcher for `IMPORT_FROM_REGEX = /^import\s+(\*|(.*))\s+from\s+('|")(.*)('|");?$/`.
Backtracking order of the JavaScript engine: the leading `\s+` is greedy
(longest whitespace run first); for each run length the alternative `\*` is
tried before `(.*)`; `(.*)` is greedy (longest capture first, never crossing
a line terminator). -/
def matchImportFrom (s : Str) : Option FromMatch :=
  if ("import".data).isPrefixOf s then
    searchDesc (fromAtK s) ((s.drop 6).takeWhile wsChar).length
  else none

/-- Matcher for `IMPORT_DEFAULT_REGEX = /^import\s+('|")(.*)('|");?$/`,
returning `matches[2]`. -/
def matchImportDefault (s : Str) : Option Str :=
  if ("import".data).isPrefixOf s then matchQuoted (s.drop 6)
  else none

/-- The message of the `Error` thrown by `parseImportLine`, echoing the
offending line and the accepted pattern. -/
def importErrorMessage (importLine : String) : String :=
  "\n    Import statement is not valid: " ++ importLine ++
    "\n    If you want to have comments starting with '# import', please use ''' instead!" ++
    "\n    You can only have 'import' statements in the following pattern;" ++
    "\n    # import [Type].[Field] from [File]\n  "

/-- `parseImportLine` from the source.  A successful `IMPORT_FROM_REGEX`
match always has `matches.length === 6`; `matches[4]` is truthy exactly when
the captured path is nonempty.  When that check fails the code falls through
to the `throw` (the `else if` on the default regex is not reached). -/
def parseImportLine (importLine : String) : Except String RawModule :=
  match matchImportFrom importLine.data with
  | some m =>
    if m.m4 ≠ [] then
      Except.ok
        ⟨if m.m1 = ['*'] then ["*"]
          else (splitChar ',' (m.m2.getD [])).map (fun d => String.mk (trimChars d)),
          String.mk m.m4⟩
    else Except.error (importErrorMessage importLine)
  | none =>
    match matchImportDefault importLine.data with
    | some frm => Except.ok ⟨["*"], String.mk frm⟩
    | none => Except.error (importErrorMessage importLine)

/-- `parseSDL` from the source: split into lines, trim, keep the lines
starting with `'# import '` or `'#import '`, remove the first `'#'`, trim
again and parse each survivor in source order. -/
def parseSDL (sdl : String) : Except String (List RawModule) :=
  ((((splitChar '\n' sdl.data).map trimChars).filter
        (fun l => ("# import ".data).isPrefixOf l || ("#import ".data).isPrefixOf l)).map
      (fun l => trimChars (replaceFirstHash l))).mapM
    (fun l => parseImportLine (String.mk l))

/-- A field definition carried by an object-like definition node: the import
logic reads only `name.value` (and the node kind feeds the shared comparison
rule). -/
structure FieldDef where
  name : String
  kind : String
deriving DecidableEq

/-- A definition node of a parsed document, as the import logic sees it:
an open kind tag, an optional `name` property (`'name' in def` is
`name.isSome`) and an optional `fields` property (`'fields' in def` is
`fields.isSome`; scalars, enums and unions have none, object-like kinds
carry a list). -/
structure DefinitionNode where
  kind : String
  name : Option String
  fields : Option (List FieldDef)
deriving DecidableEq

/-- The unguarded JavaScript property access `def.name.value`.  Every node
whose name the source reads without a `'name' in def` guard is an
object-type definition, and the GraphQL parser always names those, so the
`""` default is never observable on well-formed documents (the theorems
assume well-formedness where it matters). -/
def nameV (d : DefinitionNode) : String := d.name.getD ""

/-- `rootFields` from the source. -/
def rootFields : List String := ["Query", "Mutation", "Subscription"]

/-- Modelled from the spec: `compareNodes` lives in the separate
`@graphql-toolkit/common` package, which is not among these sources; per the
spec it is "the shared node-comparison rule (by name, ties broken by
kind)". -/
def compareNodes (a b : FieldDef) : Ordering :=
  match compare a.name b.name with
  | Ordering.eq => compare a.kind b.kind
  | o => o

/-- Insertion step of the sort below. -/
def insertNode (a : FieldDef) : List FieldDef → List FieldDef
  | [] => [a]
  | b :: bs =>
    if compareNodes a b = Ordering.gt then b :: insertNode a bs else a :: b :: bs

/-- JavaScript `Array.prototype.sort(compareNodes)`: a sort consistent with
the comparison rule (modern engines sort stably; no claim distinguishes the
order of ties). -/
def sortNodes (fs : List FieldDef) : List FieldDef := fs.foldr insertNode []

/-- Helper of `uniqByName` carrying the names already seen. -/
def uniqByNameAux (seen : List String) : List FieldDef → List FieldDef
  | [] => []
  | f :: fs =>
    if seen.contains f.name then uniqByNameAux seen fs
    else f :: uniqByNameAux (f.name :: seen) fs

/-- lodash `uniqBy(_, 'name.value')`: keep the first element bearing each
name, in order of first occurrence. -/
def uniqByName (fs : List FieldDef) : List FieldDef := uniqByNameAux [] fs

/-- JavaScript `i.split('.')[0]` (the split of a nonempty separator is never
empty, so index 0 always exists). -/
def selectorHead (i : String) : String := String.mk ((splitChar '.' i.data).headD [])

/-- JavaScript `i.split('.')` (used for its length and entry 1). -/
def selectorParts (i : String) : List Str := splitChar '.' i.data

/-- JavaScript `x.split('.')[1]` (read only for selectors with at least two
parts). -/
def selectorSecond (i : String) : String := String.mk ((selectorParts i).getD 1 [])

/-- lodash `groupBy(fieldImports, x => x.split('.')[0])`: an association
list keyed in order of first occurrence, each group keeping element order
(`for...in` over the resulting object iterates in insertion order). -/
def groupByHeadAux (acc : List (String × List String)) : List String → List (String × List String)
  | [] => acc
  | x :: xs =>
    let k := selectorHead x
    if (acc.map Prod.fst).contains k then
      groupByHeadAux (acc.map (fun p => if p.1 = k then (p.1, p.2 ++ [x]) else p)) xs
    else groupByHeadAux (acc ++ [(k, [x])]) xs

/-- See `groupByHeadAux`. -/
def groupByHead (xs : List String) : List (String × List String) := groupByHeadAux [] xs

/-- `filteredDefinitions.find(def => 'name' in def && def.name.value === n)`
followed by an in-place mutation of the found node: the first definition
named `n` is replaced by `f` applied to it. -/
def updateFirstNamed (n : String) (f : DefinitionNode → DefinitionNode) :
    List DefinitionNode → List DefinitionNode
  | [] => []
  | d :: ds =>
    if d.name.isSome && nameV d == n then f d :: ds
    else d :: updateFirstNamed n f ds

/-- One iteration of the `for (const rootType in groupedFieldImports)` loop
of `filterImportedDefinitions`: mutate the first definition named
`rootType`, replacing its field list when it has one and no `'*'` field was
requested (the `|| fields.includes('*')` inside the filter is kept from the
source although the guard makes it dead). -/
def applyFieldGroup (sort : Bool) (defs : List DefinitionNode) (g : String × List String) :
    List DefinitionNode :=
  let fieldNames := g.2.map selectorSecond
  updateFirstNamed g.1 (fun d =>
    match d.fields with
    | some fs =>
      if fieldNames.contains "*" then d
      else
        let fs2 := fs.filter (fun f => fieldNames.contains f.name || fieldNames.contains "*")
        { d with fields := some (if sort then sortNodes fs2 else fs2) }
    | none => d) defs

/-- `filterImportedDefinitions` from the source.  The source computes the
name-filtered `result` (capturing node references), then mutates the matched
definitions' field lists in place; the functional model applies the field
edits first and then filters — the edits do not change definition names, so
the same definitions are selected.  `keyBy` builds a truthy-lookup object;
it is modelled by name membership in the filtered earlier definitions. -/
def filterImportedDefinitions (imports : List String) (typeDefinitions : List DefinitionNode)
    (allDefinitions : List (List DefinitionNode)) (sort : Bool) : List DefinitionNode :=
  if imports.contains "*" then
    if imports.length = 1 ∧ imports.headD "" = "*" ∧ 1 < allDefinitions.length then
      let previousNames :=
        ((allDefinitions.take (allDefinitions.length - 1)).flatten.filter
            (fun d => d.name.isSome && !rootFields.contains (nameV d))).map nameV
      typeDefinitions.filter
        (fun t => t.kind == "ObjectTypeDefinition" && previousNames.contains (nameV t))
    else typeDefinitions
  else
    let importedTypes := imports.map selectorHead
    let fieldImports := imports.filter (fun i => (selectorParts i).length > 1)
    let grouped := groupByHead fieldImports
    let projected := grouped.foldl (applyFieldGroup sort) typeDefinitions
    projected.filter (fun d => d.name.isSome && importedTypes.contains (nameV d))

/-- One step of the merging loop of `processImportSyntax` (source lines
99–115); the state is (`processedTypeNames`, `mergedFirstTypes`).  The
source mutates the canonical node in place; the model updates the entry held
in `mergedFirstTypes`.  When the later duplicate has no `fields` property
the source's `concat(type.fields)` appends the single element `undefined`,
which bears no field name; parsed documents never collide a field-bearing
with a non-field-bearing definition in the claims' scope, and the model
concatenates nothing there. -/
def mergeStep (sort : Bool) (st : List String × List DefinitionNode) (ty : DefinitionNode) :
    List String × List DefinitionNode :=
  if ty.name.isSome then
    if st.1.contains (nameV ty) then
      (st.1,
        updateFirstNamed (nameV ty)
          (fun ex =>
            match ex.fields with
            | some efs =>
              let merged := uniqByName (efs ++ ty.fields.getD [])
              { ex with fields := some (if sort then sortNodes merged else merged) }
            | none => ex)
          st.2)
    else (st.1 ++ [nameV ty], st.2 ++ [ty])
  else st

/-- The full merging loop over a candidate sequence, returning
`mergedFirstTypes`. -/
def mergeWalk (sort : Bool) (candidates : List DefinitionNode) : List DefinitionNode :=
  (candidates.foldl (mergeStep sort) ([], [])).2

/-- The candidate merge sequence `firstSet` built by `processImportSyntax`
(source lines 92–96): the flattened projected sequences, then
`typeDefinitions[0]` again, then the flattened non-entry sequences again.
`typeDefinitions[0]` is modelled with `headD []`; the traversal always
pushes the entry document's projection first, so the list is nonempty
there. -/
def firstSetOf (typeDefinitions : List (List DefinitionNode)) : List DefinitionNode :=
  typeDefinitions.flatten ++ typeDefinitions.headD [] ++ (typeDefinitions.drop 1).flatten

/-- The merge phase of `processImportSyntax`.  The returned
`completeDefinitionPool` call is the external completion step (out of scope
per the spec §1); the claims concern the candidate construction and the
walk. -/
def processImportSyntaxMerge (sort : Bool) (typeDefinitions : List (List DefinitionNode)) :
    List DefinitionNode :=
  mergeWalk sort (firstSetOf typeDefinitions)

/-- `isGraphQLFile` from the source: the regex `\.g(raph)?ql(s)?$` accepts
exactly the suffixes `.gql`, `.gqls`, `.graphql`, `.graphqls`. -/
def isGraphQLFile (f : String) : Bool :=
  (".graphql".data).isSuffixOf f.data || (".graphqls".data).isSuffixOf f.data ||
    (".gql".data).isSuffixOf f.data || (".gqls".data).isSuffixOf f.data

/-- The two failure conditions of the callback-style `fs.realpath`: a
not-found error (`e.code === 'ENOENT'`) and anything else. -/
inductive FsError where
  | enoent
  | other
deriving DecidableEq

/-- The capabilities consumed by `resolveModuleFilePath`: `options.path`'s
`resolve`/`dirname`/`join`, the callback-style `options.fs.realpath` over
the underlying store, and the `resolve-from` package used for the module
fallback. -/
structure PathEnv where
  resolvePath : String → String → String
  dirname : String → String
  join : String → String → String
  realpath : String → Except FsError String
  resolveFrom : String → String → String

/-- `resolveModuleFilePath` from the source.  `hasFsPath` models the
presence of the optional `fs` and `path` capabilities on the options.  A
`realpath` failure whose code is not `ENOENT` is swallowed by the `catch`
block, and control falls through to the final `return importFrom`. -/
def resolveModuleFilePath (env : PathEnv) (cwd : String) (hasFsPath : Bool)
    (filePath importFrom : String) : String :=
  if hasFsPath then
    let fullPath := env.resolvePath cwd filePath
    let dirName := env.dirname fullPath
    if isGraphQLFile fullPath && isGraphQLFile importFrom then
      match env.realpath (env.join dirName importFrom) with
      | Except.ok p => p
      | Except.error FsError.enoent => env.resolveFrom dirName importFrom
      | Except.error FsError.other => importFrom
    else importFrom
  else importFrom

/-- A successfully loaded schema file: its canonical location, the
definitions of its parsed document (`document.definitions`) and the raw
text scanned for import comments. -/
structure Source where
  location : String
  definitions : List DefinitionNode
  rawSDL : String
deriving DecidableEq

/-- The options record threaded through the traversal: the sort flag, the
path-resolution capabilities and the finite file store behind the external
single-file loader. -/
structure LoadOptions where
  sort : Bool
  pathEnv : PathEnv
  cwd : String
  hasFsPath : Bool
  files : List (String × Source)

/-- Modelled from the spec: `loadSingleFile` lives in `load-typedefs`,
which is not among these sources; per the spec (§6) it is the pluggable
single-file loader `loadDocument(canonicalPath, config) -> SourceDocument`,
failing on an unknown path.  It is modelled as lookup in the finite file
store, which makes it idempotent per path as §6 requires. -/
def loadSingleFile (options : LoadOptions) (p : String) : Option Source :=
  (options.files.find? (fun e => e.1 == p)).map Prod.snd

/-- The mutable resolution state of one pass: the projected definitions per
visited document, all definitions per visited document, and
`options.processedFiles`, the map from resolved path to the `RawModule`s
already issued against it. -/
structure TraversalState where
  typeDefinitions : List (List DefinitionNode)
  allDefinitions : List (List DefinitionNode)
  processedFiles : List (String × List RawModule)
deriving DecidableEq

/-- The failures a traversal can surface: exhaustion of the recursion fuel
(shown unreachable for sufficient fuel), a malformed import line and a
loader failure. -/
inductive TravError where
  | outOfFuel
  | malformedImport (msg : String)
  | loadFailed (path : String)
deriving DecidableEq

/-- `options.processedFiles.get(p)`, with the absent case folded into `[]`
(`processedFile ? processedFile.concat(m) : [m]` is `getD [] ++ [m]`). -/
def processedFor (st : TraversalState) (p : String) : List RawModule :=
  ((st.processedFiles.find? (fun e => e.1 == p)).map Prod.snd).getD []

/-- `options.processedFiles.set(p, ms)`: replace the entry if the key is
present, append it otherwise. -/
def setProcessed (st : TraversalState) (p : String) (ms : List RawModule) : TraversalState :=
  { st with
    processedFiles :=
      if (st.processedFiles.map Prod.fst).contains p then
        st.processedFiles.map (fun e => if e.1 = p then (p, ms) else e)
      else st.processedFiles ++ [(p, ms)] }

/-- One sibling-import edge of `collectDefinitions` (the body of the
`rawModules.map(async m => ...)` callback): resolve the module path, skip
the edge when an equal record is already registered for that path,
otherwise register the record, load the file and recurse through
`recurse`. -/
def visitModule (options : LoadOptions) (src : Source)
    (recurse : List String → Source → TraversalState → Except TravError TraversalState)
    (st' : TraversalState) (m : RawModule) : Except TravError TraversalState :=
  if (processedFor st'
      (resolveModuleFilePath options.pathEnv options.cwd options.hasFsPath
        src.location m.from')).contains m then
    Except.ok st'
  else
    match loadSingleFile options
        (resolveModuleFilePath options.pathEnv options.cwd options.hasFsPath
          src.location m.from') with
    | none =>
      Except.error (TravError.loadFailed
        (resolveModuleFilePath options.pathEnv options.cwd options.hasFsPath
          src.location m.from'))
    | some result =>
      recurse m.imports result
        (setProcessed st'
          (resolveModuleFilePath options.pathEnv options.cwd options.hasFsPath
            src.location m.from')
          (processedFor st'
            (resolveModuleFilePath options.pathEnv options.cwd options.hasFsPath
              src.location m.from') ++ [m]))

/-- `collectDefinitions` from the source.  The recursion is modelled with
explicit fuel (sufficiency of a concrete fuel bound is proved below).  The
sibling imports are dispatched through `Promise.all` in the source but the
guard's read-check-then-write on `processedFiles` is synchronous (no
`await` between the `get` and the `set`), so each import edge is claimed at
most once under any interleaving; the model processes siblings sequentially
in order. -/
def collectDefinitions (options : LoadOptions) :
    Nat → List String → Source → TraversalState → Except TravError TraversalState
  | 0, _, _, _ => Except.error TravError.outOfFuel
  | fuel + 1, imports, src, st =>
    let st1 : TraversalState := { st with allDefinitions := st.allDefinitions ++ [src.definitions] }
    let current := filterImportedDefinitions imports src.definitions st1.allDefinitions options.sort
    let st2 : TraversalState := { st1 with typeDefinitions := st1.typeDefinitions ++ [current] }
    match parseSDL src.rawSDL with
    | Except.error msg => Except.error (TravError.malformedImport msg)
    | Except.ok rawModules =>
      rawModules.foldlM
        (visitModule options src (fun imp s stx => collectDefinitions options fuel imp s stx))
        st2

/-- The traversed import edges recorded in a state: every `(path, record)`
pair of `processedFiles`.  An edge is recorded exactly when it is traversed,
so this list enumerates the traversals. -/
def pairsOf (pf : List (String × List RawModule)) : List (String × RawModule) :=
  pf.flatMap (fun e => e.2.map (fun m => (e.1, m)))

/-- The import records of a source whose raw text parses; a failing parse
aborts the pass before recording anything, so `[]` is adequate there. -/
def modulesOf (src : Source) : List RawModule := ((parseSDL src.rawSDL).toOption).getD []

/-- The finite universe of import edges a pass starting from `entry` can
ever record: one candidate per import record of the entry document or of a
stored file, keyed by its resolved path. -/
def pairUniverse (options : LoadOptions) (entry : Source) : List (String × RawModule) :=
  (entry :: options.files.map Prod.snd).flatMap
    (fun s =>
      (modulesOf s).map
        (fun m =>
          (resolveModuleFilePath options.pathEnv options.cwd options.hasFsPath s.location m.from',
            m)))

/-- The initial `ResolutionState` of a pass. -/
def initState : TraversalState := ⟨[], [], []⟩

/-- A sample object-type definition used by concrete witnesses. -/
def sampleObj (n : String) (fs : List String) : DefinitionNode :=
  ⟨"ObjectTypeDefinition", some n, some (fs.map (fun f => ⟨f, "FieldDefinition"⟩))⟩

/-- A sample scalar definition used by concrete witnesses. -/
def sampleScalar (n : String) : DefinitionNode := ⟨"ScalarTypeDefinition", some n, none⟩

/-- C10: a selector list that contains `'*'` but is not the singleton
`['*']` routes past both wildcard restrictions and the specific-selector
branch: the document's definitions are returned unchanged, for entry and
non-entry documents alike. -/
theorem claim_C10 (imports : List String) (defs : List DefinitionNode)
    (allDefs : List (List DefinitionNode)) (sort : Bool)
    (hstar : imports.contains "*" = true) (hlen : imports.length ≠ 1) :
    filterImportedDefinitions imports defs allDefs sort = defs := by
  unfold filterImportedDefinitions
  rw [if_pos hstar, if_neg]
  intro h
  exact hlen h.1

theorem claim_C10_witness :
    filterImportedDefinitions ["*", "Foo"] [sampleObj "Bar" ["x"]]
        [[sampleObj "Baz" ["y"]], [sampleObj "Bar" ["x"]]] false =
      [sampleObj "Bar" ["x"]] :=
  claim_C10 ["*", "Foo"] [sampleObj "Bar" ["x"]]
    [[sampleObj "Baz" ["y"]], [sampleObj "Bar" ["x"]]] false (by decide) (by decide)

/-- C5: with the `fs`/`path` capabilities present, when both the importing
file's (resolved) path and the raw `from` string carry a recognizable
schema-file extension, the resolver returns the realpath of `from` joined
onto the importing file's directory; when that realpath fails with a
not-found error it falls back to module resolution from that directory; and
when either endpoint lacks a recognizable extension the `from` string is
returned unchanged. -/
theorem claim_C5 (env : PathEnv) (cwd filePath importFrom : String) :
    (isGraphQLFile (env.resolvePath cwd filePath) = true →
      isGraphQLFile importFrom = true →
        (∀ p,
            env.realpath (env.join (env.dirname (env.resolvePath cwd filePath)) importFrom) =
              Except.ok p →
            resolveModuleFilePath env cwd true filePath importFrom = p) ∧
        (env.realpath (env.join (env.dirname (env.resolvePath cwd filePath)) importFrom) =
            Except.error FsError.enoent →
          resolveModuleFilePath env cwd true filePath importFrom =
            env.resolveFrom (env.dirname (env.resolvePath cwd filePath)) importFrom)) ∧
    (¬(isGraphQLFile (env.resolvePath cwd filePath) = true ∧ isGraphQLFile importFrom = true) →
      resolveModuleFilePath env cwd true filePath importFrom = importFrom) := by
  constructor
  · intro h1 h2
    constructor
    · intro p hp
      simp only [resolveModuleFilePath, if_pos rfl, h1, h2, Bool.and_self, if_true, hp]
    · intro hp
      simp only [resolveModuleFilePath, if_pos rfl, h1, h2, Bool.and_self, if_true, hp]
  · intro h
    simp only [resolveModuleFilePath, if_true]
    rw [if_neg]
    intro hand
    rw [Bool.and_eq_true] at hand
    exact h ⟨hand.1, hand.2⟩

/-- A concrete path environment for the C5 witness. -/
def samplePathEnv : PathEnv where
  resolvePath := fun cwd f => cwd ++ f
  dirname := fun f => "dir(" ++ f ++ ")"
  join := fun d f => d ++ "/" ++ f
  realpath := fun p => if p = "dir(a.graphql)/missing.gql" then Except.error FsError.enoent
    else if p = "dir(a.graphql)/other.txt" then Except.error FsError.other
    else Except.ok ("real(" ++ p ++ ")")
  resolveFrom := fun d f => "module(" ++ d ++ "," ++ f ++ ")"

theorem claim_C5_witness :
    resolveModuleFilePath samplePathEnv "" true "a.graphql" "b.gqls" =
        "real(dir(a.graphql)/b.gqls)" ∧
      resolveModuleFilePath samplePathEnv "" true "a.graphql" "missing.gql" =
        "module(dir(a.graphql),missing.gql)" ∧
      resolveModuleFilePath samplePathEnv "" true "a.graphql" "plain.txt" = "plain.txt" :=
  ⟨((claim_C5 samplePathEnv "" "a.graphql" "b.gqls").1 (by decide) (by decide)).1 _ rfl,
    ((claim_C5 samplePathEnv "" "a.graphql" "missing.gql").1 (by decide) (by decide)).2 rfl,
    (claim_C5 samplePathEnv "" "a.graphql" "plain.txt").2 (by decide)⟩

lemma uniqByNameAux_all_seen (fs : List FieldDef) (seen : List String)
    (h : ∀ f ∈ fs, f.name ∈ seen) : uniqByNameAux seen fs = [] := by
  induction fs with
  | nil => rfl
  | cons f fs ih =>
    have hc : seen.contains f.name = true := by
      simpa using h f (List.mem_cons_self f fs)
    simp only [uniqByNameAux, hc, if_true]
    exact ih fun g hg => h g (List.mem_cons_of_mem f hg)

lemma uniqByNameAux_of_nodup (fs : List FieldDef) :
    ∀ (ts : List FieldDef) (seen : List String),
      (fs.map FieldDef.name).Nodup →
      (∀ f ∈ fs, f.name ∉ seen) →
      (∀ t ∈ ts, t.name ∈ fs.map FieldDef.name ∨ t.name ∈ seen) →
      uniqByNameAux seen (fs ++ ts) = fs := by
  induction fs with
  | nil =>
    intro ts seen _ _ h3
    apply uniqByNameAux_all_seen
    intro t ht
    rcases h3 t ht with h | h
    · simp at h
    · exact h
  | cons f fs ih =>
    intro ts seen h1 h2 h3
    have hc : seen.contains f.name = false := by
      simpa using h2 f (List.mem_cons_self f fs)
    simp only [List.cons_append, uniqByNameAux, hc, Bool.false_eq_true, if_false]
    congr 1
    simp only [List.map_cons, List.nodup_cons] at h1
    refine ih ts (f.name :: seen) h1.2 ?_ ?_
    · intro g hg hmem
      rcases List.mem_cons.mp hmem with h | h
      · exact h1.1 (h ▸ List.mem_map_of_mem FieldDef.name hg)
      · exact h2 g (List.mem_cons_of_mem f hg) h
    · intro t ht
      rcases h3 t ht with h | h
      · simp only [List.map_cons, List.mem_cons] at h
        rcases h with h' | h'
        · exact Or.inr (List.mem_cons.mpr (Or.inl h'))
        · exact Or.inl (by simpa using h')
      · exact Or.inr (List.mem_cons_of_mem _ h)

/-- Doubling a list whose field names are distinct and de-duplicating by
name gives the list back. -/
lemma uniqByName_self_append (fs : List FieldDef) (h : (fs.map FieldDef.name).Nodup) :
    uniqByName (fs ++ fs) = fs := by
  unfold uniqByName
  refine uniqByNameAux_of_nodup fs fs [] h (by simp) ?_
  intro t ht
  exact Or.inl (List.mem_map_of_mem FieldDef.name ht)

/-- C7: merging two identical copies of one object-type definition (same
name, same fields) yields a single definition carrying exactly that field
set — the self-union de-duplicates back to the original list (re-sorted when
the sort option is on).  The two copies are identical, so the two possible
input orders are the same list and the result is order-independent. -/
theorem claim_C7 (sort : Bool) (d : DefinitionNode) (n : String) (fs : List FieldDef)
    (_hkind : d.kind = "ObjectTypeDefinition") (hname : d.name = some n)
    (hfields : d.fields = some fs) (hnodup : (fs.map FieldDef.name).Nodup) :
    mergeWalk sort [d, d] = [{ d with fields := some (if sort then sortNodes fs else fs) }] := by
  have hsome : d.name.isSome = true := by rw [hname]; rfl
  simp only [mergeWalk, List.foldl]
  rw [show mergeStep sort ([], []) d = ([nameV d], [d]) by simp [mergeStep, hsome]]
  simp only [mergeStep, hsome, if_true]
  rw [if_pos (by simp : ([nameV d] : List String).contains (nameV d) = true)]
  simp only [updateFirstNamed, hsome, Bool.true_and, beq_self_eq_true, if_true, hfields,
    Option.getD_some]
  rw [uniqByName_self_append fs hnodup]

theorem claim_C7_witness :
    mergeWalk false [sampleObj "T" ["a", "b"], sampleObj "T" ["a", "b"]] =
      [sampleObj "T" ["a", "b"]] := by
  have h := claim_C7 false (sampleObj "T" ["a", "b"]) "T"
    [⟨"a", "FieldDefinition"⟩, ⟨"b", "FieldDefinition"⟩] rfl rfl rfl (by decide)
  simpa using h

lemma updateFirstNamed_name_map (n : String) (f : DefinitionNode → DefinitionNode)
    (hf : ∀ d, (f d).name = d.name) :
    ∀ l : List DefinitionNode,
      (updateFirstNamed n f l).map DefinitionNode.name = l.map DefinitionNode.name := by
  intro l
  induction l with
  | nil => rfl
  | cons d ds ih =>
    simp only [updateFirstNamed]
    by_cases h : (d.name.isSome && nameV d == n) = true
    · simp [h, hf d]
    · rw [if_neg h]
      simp only [List.map_cons, ih]

lemma applyFieldGroup_name_map (sort : Bool) (g : String × List String)
    (l : List DefinitionNode) :
    (applyFieldGroup sort l g).map DefinitionNode.name = l.map DefinitionNode.name := by
  unfold applyFieldGroup
  apply updateFirstNamed_name_map
  intro d
  cases hd : d.fields
  · simp only [hd]
  · simp only [hd]
    split <;> rfl

lemma foldl_applyFieldGroup_name_map (sort : Bool) (gs : List (String × List String)) :
    ∀ l : List DefinitionNode,
      ((gs.foldl (applyFieldGroup sort) l).map DefinitionNode.name) = l.map DefinitionNode.name := by
  induction gs with
  | nil => intro l; rfl
  | cons g gs ih =>
    intro l
    simp only [List.foldl_cons, ih (applyFieldGroup sort l g), applyFieldGroup_name_map]

/-- C8: the Definition Projector is a total function (the embedding returns
a plain list for every input), and a selector list that names no definition
of the document yields the empty projection rather than an error; an
unknown field selector on a known type likewise yields that type with the
non-matching fields dropped, not an error. -/
theorem claim_C8 (imports : List String) (defs : List DefinitionNode)
    (allDefs : List (List DefinitionNode)) (sort : Bool)
    (hstar : imports.contains "*" = false)
    (hunknown : ∀ d ∈ defs, ∀ n, d.name = some n → n ∉ imports.map selectorHead) :
    filterImportedDefinitions imports defs allDefs sort = [] ∧
      filterImportedDefinitions ["Unknown", "T.ghost"] [sampleObj "T" ["a"]] [] false =
        [⟨"ObjectTypeDefinition", some "T", some []⟩] := by
  constructor
  · unfold filterImportedDefinitions
    rw [if_neg (by simpa using hstar)]
    simp only []
    rw [List.filter_eq_nil_iff]
    intro d' hd'
    have hmem : d'.name ∈ (List.foldl (applyFieldGroup sort)
        defs (groupByHead (imports.filter (fun i => (selectorParts i).length > 1)))).map
          DefinitionNode.name := List.mem_map_of_mem DefinitionNode.name hd'
    rw [foldl_applyFieldGroup_name_map] at hmem
    rcases List.mem_map.mp hmem with ⟨d, hd, hdn⟩
    cases hn : d'.name with
    | none => simp [hn, nameV]
    | some n =>
      have : n ∉ imports.map selectorHead := hunknown d hd n (by rw [hdn, hn])
      simp [hn, nameV, this]
  · decide

theorem claim_C8_witness :
    filterImportedDefinitions ["Nope"] [sampleObj "T" ["a"]] [] false = [] :=
  (claim_C8 ["Nope"] [sampleObj "T" ["a"]] [] false (by decide) (by decide)).1

/-- The restriction the spec describes for a bare wildcard import from a
non-entry document: keep the named, object-kind definitions whose name was
already seen in a definition of a strictly earlier document, the three root
operation type names being excluded from that earlier-seen set. -/
def wildcardSpecFilter (defs : List DefinitionNode)
    (earlier : List (List DefinitionNode)) : List DefinitionNode :=
  defs.filter (fun d =>
    d.name.isSome && d.kind == "ObjectTypeDefinition" &&
      earlier.flatten.any (fun e =>
        e.name.isSome && (e.name == d.name) && !rootFields.contains (nameV e)))

/-- C2: a projection called with exactly the singleton `['*']` on a
non-entry document (the current document's definitions are already the last
entry of `allDefs`, so "non-entry" is `1 < allDefs.length`) returns exactly
the named object-kind definitions whose name occurs among the definitions
of strictly earlier documents minus the root operation type names; on the
entry document the same call returns all definitions unfiltered.  Nodes of
object kind are assumed named, as the GraphQL parser guarantees (the source
reads `typeDef.name.value` unguarded there). -/
theorem claim_C2 (defs : List DefinitionNode) (allDefs : List (List DefinitionNode))
    (sort : Bool)
    (hwf : ∀ d ∈ defs, d.kind = "ObjectTypeDefinition" → d.name.isSome = true) :
    (1 < allDefs.length →
      filterImportedDefinitions ["*"] defs allDefs sort =
        wildcardSpecFilter defs (allDefs.take (allDefs.length - 1))) ∧
    (allDefs.length ≤ 1 → filterImportedDefinitions ["*"] defs allDefs sort = defs) := by
  constructor
  · intro hlen
    unfold filterImportedDefinitions wildcardSpecFilter
    rw [if_pos (by decide), if_pos ⟨rfl, rfl, hlen⟩]
    apply List.filter_congr
    intro d hd
    cases hkind : decide (d.kind = "ObjectTypeDefinition") with
    | false =>
      have : (d.kind == "ObjectTypeDefinition") = false := by
        simpa using of_decide_eq_false hkind
      simp [this]
    | true =>
      have hk : d.kind = "ObjectTypeDefinition" := of_decide_eq_true hkind
      have hs : d.name.isSome = true := hwf d hd hk
      have hbeq : (d.kind == "ObjectTypeDefinition") = true := by simp [hk]
      simp only [hbeq, hs, Bool.true_and, Bool.and_true]
      rw [Bool.eq_iff_iff]
      constructor
      · intro h
        have hmem : nameV d ∈ ((allDefs.take (allDefs.length - 1)).flatten.filter
            (fun e => e.name.isSome && !rootFields.contains (nameV e))).map nameV := by
          simpa using h
        rcases List.mem_map.mp hmem with ⟨e, he, hee⟩
        rcases List.mem_filter.mp he with ⟨he1, he2⟩
        rw [Bool.and_eq_true] at he2
        refine List.any_eq_true.mpr ⟨e, he1, ?_⟩
        rcases Option.isSome_iff_exists.mp he2.1 with ⟨x, hx⟩
        rcases Option.isSome_iff_exists.mp hs with ⟨y, hy⟩
        have hxy : x = y := by
          have h1 : nameV e = x := by rw [nameV, hx]; rfl
          have h2 : nameV d = y := by rw [nameV, hy]; rfl
          rw [← h1, ← h2, hee]
        have hen : (e.name == d.name) = true := by
          rw [hx, hy, hxy]
          simp
        have hroot : nameV e ∉ rootFields := by simpa using he2.2
        simp [he2.1, hen, hroot]
      · intro h
        rcases List.any_eq_true.mp h with ⟨e, he, hcond⟩
        rw [Bool.and_eq_true, Bool.and_eq_true] at hcond
        have hen : e.name = d.name := by
          have := hcond.1.2
          simpa using this
        have hee : nameV e = nameV d := by rw [nameV, nameV, hen]
        have hmem : nameV d ∈ ((allDefs.take (allDefs.length - 1)).flatten.filter
            (fun e => e.name.isSome && !rootFields.contains (nameV e))).map nameV := by
          refine List.mem_map.mpr ⟨e, ?_, hee⟩
          refine List.mem_filter.mpr ⟨he, ?_⟩
          rw [Bool.and_eq_true]
          exact ⟨hcond.1.1, hcond.2⟩
        simpa using hmem
  · intro hlen
    unfold filterImportedDefinitions
    rw [if_pos (by decide), if_neg]
    intro h
    omega

theorem claim_C2_witness :
    filterImportedDefinitions ["*"]
        [sampleObj "Foo" ["x"], sampleScalar "S", sampleObj "Query" ["q"]]
        [[sampleObj "Foo" ["y"], sampleObj "Query" ["q0"]],
          [sampleObj "Foo" ["x"], sampleScalar "S", sampleObj "Query" ["q"]]] false =
      [sampleObj "Foo" ["x"]] := by
  have h := (claim_C2 [sampleObj "Foo" ["x"], sampleScalar "S", sampleObj "Query" ["q"]]
      [[sampleObj "Foo" ["y"], sampleObj "Query" ["q0"]],
        [sampleObj "Foo" ["x"], sampleScalar "S", sampleObj "Query" ["q"]]] false
      (by decide)).1 (by decide)
  rw [h]
  decide

/-- The extraction the spec describes for the Directive Extractor: split
into lines, trim each, keep exactly the lines beginning with `'# import '`
or `'#import '`, and strip the leading comment marker (re-trimming the
remainder). -/
def importCommentLines (sdl : String) : List Str :=
  (((splitChar '\n' sdl.data).map trimChars).filter
      (fun l => ("# import ".data).isPrefixOf l || ("#import ".data).isPrefixOf l)).map
    (fun l => trimChars (l.drop 1))

lemma replaceFirstHash_of_head (t : Str) : replaceFirstHash ('#' :: t) = t := by
  simp [replaceFirstHash]

/-- C9: the Directive Extractor splits the text into lines, trims each,
keeps exactly the lines starting with the literal `'# import '` or
`'#import '` prefixes, strips the comment marker and parses the survivors
with the import-line grammar in source order; a text with no such lines
yields the empty sequence, not an error.  (The source removes the first
`'#'` of the line, which on a retained line is its leading character.) -/
theorem claim_C9 (sdl : String) :
    parseSDL sdl = (importCommentLines sdl).mapM (fun l => parseImportLine (String.mk l)) ∧
      (importCommentLines sdl = [] → parseSDL sdl = Except.ok []) := by
  have hlines : (((splitChar '\n' sdl.data).map trimChars).filter
        (fun l => ("# import ".data).isPrefixOf l || ("#import ".data).isPrefixOf l)).map
      (fun l => trimChars (replaceFirstHash l)) = importCommentLines sdl := by
    unfold importCommentLines
    apply List.map_congr_left
    intro l hl
    rcases List.mem_filter.mp hl with ⟨-, hpre⟩
    rw [Bool.or_eq_true] at hpre
    have hhead : ∃ t, l = '#' :: t := by
      rcases hpre with h | h
      · cases l with
        | nil => simp [List.isPrefixOf] at h
        | cons c t =>
          refine ⟨t, ?_⟩
          have : c = '#' := by
            simp [List.isPrefixOf] at h
            exact h.1.symm
          rw [this]
      · cases l with
        | nil => simp [List.isPrefixOf] at h
        | cons c t =>
          refine ⟨t, ?_⟩
          have : c = '#' := by
            simp [List.isPrefixOf] at h
            exact h.1.symm
          rw [this]
    rcases hhead with ⟨t, ht⟩
    rw [ht, replaceFirstHash_of_head]
    rfl
  constructor
  · unfold parseSDL
    rw [hlines]
  · intro hempty
    unfold parseSDL
    rw [hlines, hempty]
    rfl

theorem claim_C9_witness :
    parseSDL "type Q\n# import A from 'x.gql'\n  #import * from 'y.gql'" =
        Except.ok [⟨["A"], "x.gql"⟩, ⟨["*"], "y.gql"⟩] ∧
      parseSDL "type Q { a: Int }" = Except.ok [] := by
  constructor
  · rw [(claim_C9 "type Q\n# import A from 'x.gql'\n  #import * from 'y.gql'").1]
    decide
  · exact (claim_C9 "type Q { a: Int }").2 (by decide)

/-- Lookup in an association list built by `groupByHead` (first entry with
the key, as `for...in` and object indexing see it). -/
def lookupGroup (gs : List (String × List String)) (k : String) : Option (List String) :=
  (gs.find? (fun p => p.1 == k)).map Prod.snd

lemma lookupGroup_map_update (acc : List (String × List String)) (k0 : String)
    (f : List String → List String) (k : String) :
    lookupGroup (acc.map (fun p => if p.1 = k0 then (p.1, f p.2) else p)) k =
      if k = k0 then (lookupGroup acc k).map f else lookupGroup acc k := by
  induction acc with
  | nil => by_cases h : k = k0 <;> simp [lookupGroup, h]
  | cons p acc ih =>
    simp only [List.map_cons]
    by_cases hp : p.1 = k0
    · rw [if_pos hp]
      by_cases hk : k = k0
      · subst hk
        have hb : (p.1 == k) = true := by simp [hp]
        simp [lookupGroup, List.find?_cons, hb]
      · have hb : (p.1 == k) = false := by
          simp only [beq_eq_false_iff_ne, ne_eq]
          intro h
          exact hk (h ▸ hp)
        simp only [lookupGroup, List.find?_cons, hb]
        have h2 := ih
        rw [if_neg hk] at h2
        rw [if_neg hk]
        simpa [lookupGroup, List.find?_cons, hb] using h2
    · rw [if_neg hp]
      by_cases hpk : p.1 = k
      · have hk : ¬k = k0 := fun h => hp (hpk.trans h)
        have hb : (p.1 == k) = true := by simp [hpk]
        simp [lookupGroup, List.find?_cons, hb, hk]
      · have hb : (p.1 == k) = false := by simp [hpk]
        simp only [lookupGroup, List.find?_cons, hb]
        simpa [lookupGroup, List.find?_cons, hb] using ih

lemma lookupGroup_append_single (acc : List (String × List String)) (k0 k : String)
    (g0 : List String) :
    lookupGroup (acc ++ [(k0, g0)]) k =
      match lookupGroup acc k with
      | some g => some g
      | none => if k = k0 then some g0 else none := by
  induction acc with
  | nil =>
    by_cases h : k = k0
    · simp [lookupGroup, h]
    · have : (k0 == k) = false := by
        simp
        exact fun he => h he.symm
      simp [lookupGroup, this, h]
  | cons p acc ih =>
    by_cases hpk : p.1 = k
    · have : (p.1 == k) = true := by simp [hpk]
      simp [lookupGroup, List.find?_cons, this]
    · have : (p.1 == k) = false := by simp [hpk]
      simp only [lookupGroup, List.cons_append, List.find?_cons, this]
      simpa [lookupGroup] using ih

lemma lookupGroup_isSome_of_contains (acc : List (String × List String)) (k : String) :
    (acc.map Prod.fst).contains k = (lookupGroup acc k).isSome := by
  induction acc with
  | nil => simp [lookupGroup]
  | cons p acc ih =>
    by_cases hpk : p.1 = k
    · have : (p.1 == k) = true := by simp [hpk]
      simp [lookupGroup, List.find?_cons, this, hpk]
    · have hb : (p.1 == k) = false := by simp [hpk]
      have hb2 : (k == p.1) = false := by
        simp
        exact fun h => hpk h.symm
      simp only [lookupGroup, List.map_cons, List.contains_cons, List.find?_cons, hb, hb2]
      simpa [lookupGroup] using ih

lemma groupByHeadAux_lookup (xs : List String) :
    ∀ (acc : List (String × List String)) (k : String),
      lookupGroup (groupByHeadAux acc xs) k =
        match lookupGroup acc k with
        | some g => some (g ++ xs.filter (fun x => selectorHead x == k))
        | none =>
          if xs.filter (fun x => selectorHead x == k) = [] then none
          else some (xs.filter (fun x => selectorHead x == k)) := by
  induction xs with
  | nil =>
    intro acc k
    cases h : lookupGroup acc k <;> simp [groupByHeadAux, h]
  | cons x xs ih =>
    intro acc k
    simp only [groupByHeadAux]
    by_cases hc : ((acc.map Prod.fst).contains (selectorHead x)) = true
    · rw [if_pos hc, ih, lookupGroup_map_update acc (selectorHead x) (fun g => g ++ [x]) k]
      by_cases hk : k = selectorHead x
      · subst hk
        rw [lookupGroup_isSome_of_contains] at hc
        rcases Option.isSome_iff_exists.mp hc with ⟨g, hg⟩
        simp [hg, List.filter_cons]
      · have hkb : (selectorHead x == k) = false := by
          simp only [beq_eq_false_iff_ne, ne_eq]
          exact fun h => hk h.symm
        rw [if_neg hk]
        cases h : lookupGroup acc k <;> simp [h, List.filter_cons, hkb]
    · rw [if_neg hc, ih, lookupGroup_append_single]
      by_cases hk : k = selectorHead x
      · subst hk
        have hnone : lookupGroup acc (selectorHead x) = none := by
          rw [lookupGroup_isSome_of_contains] at hc
          cases h : lookupGroup acc (selectorHead x)
          · rfl
          · rw [h] at hc
            simp at hc
        simp [hnone, List.filter_cons]
      · have hkb : (selectorHead x == k) = false := by
          simp only [beq_eq_false_iff_ne, ne_eq]
          exact fun h => hk h.symm
        cases h : lookupGroup acc k <;>
          simp [h, hk, List.filter_cons, hkb]

/-- The group that `groupByHead` records under a key is exactly the filter
of the input by that key. -/
lemma groupByHead_lookup (xs : List String) (k : String) :
    lookupGroup (groupByHead xs) k =
      if xs.filter (fun x => selectorHead x == k) = [] then none
      else some (xs.filter (fun x => selectorHead x == k)) := by
  unfold groupByHead
  rw [groupByHeadAux_lookup]
  simp [lookupGroup]

lemma groupByHeadAux_keys_nodup (xs : List String) :
    ∀ acc : List (String × List String), ((acc.map Prod.fst).Nodup) →
      ((groupByHeadAux acc xs).map Prod.fst).Nodup := by
  induction xs with
  | nil => intro acc h; exact h
  | cons x xs ih =>
    intro acc h
    simp only [groupByHeadAux]
    by_cases hc : ((acc.map Prod.fst).contains (selectorHead x)) = true
    · rw [if_pos hc]
      apply ih
      have : (acc.map (fun p => if p.1 = selectorHead x then (p.1, p.2 ++ [x]) else p)).map
          Prod.fst = acc.map Prod.fst := by
        rw [List.map_map]
        apply List.map_congr_left
        intro p _
        by_cases hp : p.1 = selectorHead x <;> simp [hp]
      rw [this]
      exact h
    · rw [if_neg hc]
      apply ih
      rw [List.map_append]
      simp only [List.map_cons, List.map_nil]
      rw [List.nodup_append]
      refine ⟨h, List.nodup_singleton _, ?_⟩
      intro a ha
      simp only [List.mem_singleton]
      intro he
      rw [he] at ha
      exact hc (by simpa using ha)

/-- The field projection the source applies to the owning type of one group
of `Type.field` selectors. -/
def applyGroupFn (sort : Bool) (g : List String) (d : DefinitionNode) : DefinitionNode :=
  match d.fields with
  | some fs =>
    if (g.map selectorSecond).contains "*" then d
    else
      { d with
        fields := some
          (if sort then
            sortNodes (fs.filter (fun f =>
              (g.map selectorSecond).contains f.name || (g.map selectorSecond).contains "*"))
          else
            fs.filter (fun f =>
              (g.map selectorSecond).contains f.name ||
                (g.map selectorSecond).contains "*")) }
  | none => d

lemma applyFieldGroup_eq (sort : Bool) (defs : List DefinitionNode)
    (g : String × List String) :
    applyFieldGroup sort defs g = updateFirstNamed g.1 (applyGroupFn sort g.2) defs := rfl

lemma applyGroupFn_name (sort : Bool) (g : List String) (d : DefinitionNode) :
    (applyGroupFn sort g d).name = d.name := by
  unfold applyGroupFn
  cases hd : d.fields
  · rfl
  · simp only []
    split <;> rfl

lemma namedNames_tail (d : DefinitionNode) (ds : List DefinitionNode)
    (h : ((d :: ds).filterMap DefinitionNode.name).Nodup) :
    (ds.filterMap DefinitionNode.name).Nodup := by
  cases hd : d.name with
  | none => simpa [List.filterMap_cons, hd] using h
  | some a =>
    rw [List.filterMap_cons, hd] at h
    exact h.of_cons

lemma updateFirstNamed_eq_map (n : String) (f : DefinitionNode → DefinitionNode) :
    ∀ defs : List DefinitionNode, ((defs.filterMap DefinitionNode.name).Nodup) →
      updateFirstNamed n f defs =
        defs.map (fun d => if d.name.isSome && nameV d == n then f d else d) := by
  intro defs
  induction defs with
  | nil => intro _; rfl
  | cons d ds ih =>
    intro h
    simp only [updateFirstNamed, List.map_cons]
    by_cases hcond : (d.name.isSome && nameV d == n) = true
    · rw [if_pos hcond, if_pos hcond]
      congr 1
      rw [Bool.and_eq_true] at hcond
      have hdn : d.name = some n := by
        rcases Option.isSome_iff_exists.mp hcond.1 with ⟨a, ha⟩
        have : nameV d = a := by rw [nameV, ha]; rfl
        have han : a = n := by
          have h2 := hcond.2
          rw [this] at h2
          simpa using h2
        rw [ha, han]
      have hnotin : ∀ d' ∈ ds, ¬(d'.name.isSome && nameV d' == n) = true := by
        intro d' hd' hcond'
        rw [Bool.and_eq_true] at hcond'
        rcases Option.isSome_iff_exists.mp hcond'.1 with ⟨a', ha'⟩
        have ha'n : a' = n := by
          have h1 : nameV d' = a' := by rw [nameV, ha']; rfl
          have := hcond'.2
          rw [h1] at this
          simpa using this
        rw [List.filterMap_cons, hdn] at h
        rw [List.nodup_cons] at h
        apply h.1
        rw [List.mem_filterMap]
        exact ⟨d', hd', by rw [ha', ha'n]⟩
      have := List.map_congr_left (l := ds)
        (f := fun d => if d.name.isSome && nameV d == n then f d else d) (g := id) ?_
      · rw [this, List.map_id]
      · intro d' hd'
        have hne := hnotin d' hd'
        simp only [id_eq]
        rw [if_neg hne]
    · rw [if_neg hcond, if_neg hcond]
      congr 1
      exact ih (namedNames_tail d ds h)

lemma lookupGroup_eq_none (gs : List (String × List String)) (k : String)
    (h : k ∉ gs.map Prod.fst) : lookupGroup gs k = none := by
  have hc := lookupGroup_isSome_of_contains gs k
  cases hg : lookupGroup gs k with
  | none => rfl
  | some g =>
    have hck : (gs.map Prod.fst).contains k = true := by rw [hc, hg]; rfl
    exact absurd (by simpa using hck) h

lemma foldl_applyFieldGroup_lookup (sort : Bool) (gs : List (String × List String)) :
    ∀ defs : List DefinitionNode, ((gs.map Prod.fst).Nodup) →
      ((defs.filterMap DefinitionNode.name).Nodup) →
      gs.foldl (applyFieldGroup sort) defs =
        defs.map (fun d =>
          if d.name.isSome then
            match lookupGroup gs (nameV d) with
            | some g => applyGroupFn sort g d
            | none => d
          else d) := by
  induction gs with
  | nil =>
    intro defs _ _
    simp [lookupGroup]
  | cons p gs ih =>
    intro defs hkeys hnames
    obtain ⟨k, g⟩ := p
    simp only [List.foldl_cons]
    rw [applyFieldGroup_eq]
    rw [updateFirstNamed_eq_map k (applyGroupFn sort g) defs hnames]
    have hkeys2 : (k :: gs.map Prod.fst).Nodup := by simpa using hkeys
    have hknot : k ∉ gs.map Prod.fst := (List.nodup_cons.mp hkeys2).1
    have hstep1name : ∀ d : DefinitionNode,
        ((if (d.name.isSome && nameV d == k) = true then applyGroupFn sort g d else d)).name =
          d.name := by
      intro d
      by_cases hcond : (d.name.isSome && nameV d == k) = true
      · rw [if_pos hcond, applyGroupFn_name]
      · rw [if_neg hcond]
    have hnames2 : (((defs.map
          (fun d => if (d.name.isSome && nameV d == k) = true then applyGroupFn sort g d
            else d)).filterMap DefinitionNode.name).Nodup) := by
      have : (defs.map
            (fun d => if (d.name.isSome && nameV d == k) = true then applyGroupFn sort g d
              else d)).filterMap DefinitionNode.name = defs.filterMap DefinitionNode.name := by
        rw [List.filterMap_map]
        apply List.filterMap_congr
        intro d _
        exact congrArg id (hstep1name d)
      rw [this]
      exact hnames
    rw [ih _ (List.nodup_cons.mp hkeys2).2 hnames2]
    rw [List.map_map]
    apply List.map_congr_left
    intro d _
    simp only [Function.comp_apply]
    by_cases hs : d.name.isSome = true
    · by_cases heq : nameV d = k
      · have hcond : (d.name.isSome && nameV d == k) = true := by simp [hs, heq]
        rw [if_pos hcond]
        have hname' : (applyGroupFn sort g d).name = d.name := applyGroupFn_name sort g d
        have hnv : nameV (applyGroupFn sort g d) = nameV d := by rw [nameV, nameV, hname']
        have hs' : (applyGroupFn sort g d).name.isSome = true := by rw [hname']; exact hs
        rw [if_pos hs', hnv, heq, lookupGroup_eq_none gs k hknot, if_pos hs]
        rw [show lookupGroup ((k, g) :: gs) k = some g from by simp [lookupGroup, List.find?_cons]]
      · have hbeq : (nameV d == k) = false := by
          simp only [beq_eq_false_iff_ne, ne_eq]
          exact heq
        have hcond : (d.name.isSome && nameV d == k) = false := by
          rw [hbeq, Bool.and_false]
        rw [hcond]
        simp only [Bool.false_eq_true, if_false]
        rw [if_pos hs, if_pos hs]
        have hhead : lookupGroup ((k, g) :: gs) (nameV d) = lookupGroup gs (nameV d) := by
          have hkb : ((k : String) == nameV d) = false := by
            simp only [beq_eq_false_iff_ne, ne_eq]
            exact fun h => heq h.symm
          simp [lookupGroup, List.find?_cons, hkb]
        rw [hhead]
    · have hsf : d.name.isSome = false := by simpa using hs
      have hcond : (d.name.isSome && nameV d == k) = false := by rw [hsf]; rfl
      rw [hcond]
      simp only [Bool.false_eq_true, if_false]
      rw [if_neg hs, if_neg hs]

/-- The field selectors owned by type `n` in a selector list, as the spec
describes them: the `Type.field` selectors whose owning type is `n`,
reduced to their field names. -/
def fieldSelectorsFor (imports : List String) (n : String) : List String :=
  (imports.filter (fun i => selectorHead i == n && (selectorParts i).length > 1)).map
    selectorSecond

/-- The per-definition projection the spec describes: when the definition
owns field selectors and no `'*'` is among them, its field list is replaced
by the requested fields (ordered by the shared comparison rule when the
sort option is on); a `'*'` field selector, or no field selectors at all,
keeps the definition unchanged. -/
def projectFieldsSpec (imports : List String) (sort : Bool) (d : DefinitionNode) :
    DefinitionNode :=
  if fieldSelectorsFor imports (nameV d) = [] then d
  else if (fieldSelectorsFor imports (nameV d)).contains "*" then d
  else
    match d.fields with
    | some fs =>
      { d with
        fields := some
          (if sort then
            sortNodes (fs.filter (fun f =>
              (fieldSelectorsFor imports (nameV d)).contains f.name))
          else fs.filter (fun f => (fieldSelectorsFor imports (nameV d)).contains f.name)) }
    | none => d

/-- The projection the spec describes for a specific selector list: keep
exactly the definitions named by a selected type, each with its fields
projected per `projectFieldsSpec`. -/
def projectorSpec (imports : List String) (defs : List DefinitionNode) (sort : Bool) :
    List DefinitionNode :=
  defs.filterMap (fun d =>
    if d.name.isSome && (imports.map selectorHead).contains (nameV d) then
      some (projectFieldsSpec imports sort d)
    else none)

lemma filterMap_ite {α : Type} (p : α → Bool) (f : α → α) (l : List α) :
    l.filterMap (fun a => if p a then some (f a) else none) = (l.filter p).map f := by
  induction l with
  | nil => rfl
  | cons a l ih =>
    by_cases h : p a = true
    · simp [List.filterMap_cons, List.filter_cons, h, ih]
    · simp [List.filterMap_cons, List.filter_cons, h, ih]

lemma projector_pointwise (imports : List String) (sort : Bool) (d : DefinitionNode) :
    (match lookupGroup (groupByHead (imports.filter (fun i => (selectorParts i).length > 1)))
        (nameV d) with
      | some g => applyGroupFn sort g d
      | none => d) = projectFieldsSpec imports sort d := by
  rw [groupByHead_lookup, List.filter_filter]
  have hreq : fieldSelectorsFor imports (nameV d) =
      (imports.filter
        (fun x => selectorHead x == nameV d && decide ((selectorParts x).length > 1))).map
          selectorSecond := rfl
  by_cases hempty : imports.filter
      (fun x => selectorHead x == nameV d && decide ((selectorParts x).length > 1)) = []
  · rw [if_pos hempty]
    unfold projectFieldsSpec
    rw [if_pos (by rw [hreq, hempty]; rfl)]
  · rw [if_neg hempty]
    show applyGroupFn sort
        (imports.filter
          (fun x => selectorHead x == nameV d && decide ((selectorParts x).length > 1))) d =
      projectFieldsSpec imports sort d
    have hreqne : ¬fieldSelectorsFor imports (nameV d) = [] := by
      rw [hreq]
      simpa using hempty
    unfold applyGroupFn projectFieldsSpec
    rw [← hreq, if_neg hreqne]
    by_cases hws : (fieldSelectorsFor imports (nameV d)).contains "*" = true
    · rw [if_pos hws]
      have hmem : "*" ∈ fieldSelectorsFor imports (nameV d) := by simpa using hws
      cases hf : d.fields with
      | none => rfl
      | some fs => simp [hmem]
    · rw [if_neg hws]
      have hmem : "*" ∉ fieldSelectorsFor imports (nameV d) := by simpa using hws
      cases hf : d.fields with
      | none => rfl
      | some fs => simp [hmem]

/-- C4: for a selector list with no top-level `'*'` (on documents with
distinct definition names, as GraphQL guarantees), the projector keeps
exactly the definitions named by a selected type and replaces the field
list of each owning type per its field selectors — all fields kept when a
`'*'` field selector was requested, only the requested fields otherwise,
ordered by the shared comparison rule when the sort option is on.  In
particular `Type.fieldA` against `{fieldA, fieldB}` projects only `fieldA`,
and `Type.*` keeps both. -/
theorem claim_C4 (imports : List String) (defs : List DefinitionNode)
    (allDefs : List (List DefinitionNode)) (sort : Bool)
    (hstar : imports.contains "*" = false)
    (hnodup : (defs.filterMap DefinitionNode.name).Nodup) :
    filterImportedDefinitions imports defs allDefs sort = projectorSpec imports defs sort ∧
      filterImportedDefinitions ["Type.fieldA"] [sampleObj "Type" ["fieldA", "fieldB"]] []
          false =
        [sampleObj "Type" ["fieldA"]] ∧
      filterImportedDefinitions ["Type.*"] [sampleObj "Type" ["fieldA", "fieldB"]] [] false =
        [sampleObj "Type" ["fieldA", "fieldB"]] := by
  refine ⟨?_, by decide, by decide⟩
  unfold filterImportedDefinitions
  rw [if_neg (by simpa using hstar)]
  simp only []
  rw [foldl_applyFieldGroup_lookup sort
    (groupByHead (imports.filter (fun i => (selectorParts i).length > 1))) defs
    (groupByHeadAux_keys_nodup _ [] (by simp)) hnodup]
  rw [List.filter_map]
  unfold projectorSpec
  rw [filterMap_ite
    (fun d => d.name.isSome && (imports.map selectorHead).contains (nameV d))
    (projectFieldsSpec imports sort) defs]
  have hFname : ∀ e : DefinitionNode,
      (if e.name.isSome then
          match lookupGroup (groupByHead
              (imports.filter (fun i => (selectorParts i).length > 1))) (nameV e) with
          | some g => applyGroupFn sort g e
          | none => e
        else e).name = e.name := by
    intro e
    by_cases hs : e.name.isSome = true
    · rw [if_pos hs]
      cases hl : lookupGroup (groupByHead
          (imports.filter (fun i => (selectorParts i).length > 1))) (nameV e) with
      | none => rfl
      | some g => exact applyGroupFn_name sort g e
    · rw [if_neg hs]
  have hgen : ∀ e E : DefinitionNode, E.name = e.name →
      (E.name.isSome && (imports.map selectorHead).contains (nameV E)) =
        (e.name.isSome && (imports.map selectorHead).contains (nameV e)) := by
    intro e E h
    rw [nameV, nameV, h]
  have hfilter : defs.filter
      ((fun e : DefinitionNode =>
          e.name.isSome && (imports.map selectorHead).contains (nameV e)) ∘
        (fun e : DefinitionNode =>
          if e.name.isSome then
            match lookupGroup (groupByHead
                (imports.filter (fun i => (selectorParts i).length > 1))) (nameV e) with
            | some g => applyGroupFn sort g e
            | none => e
          else e)) =
      defs.filter (fun e : DefinitionNode =>
        e.name.isSome && (imports.map selectorHead).contains (nameV e)) := by
    apply List.filter_congr
    intro e _
    exact hgen e _ (hFname e)
  rw [hfilter]
  apply List.map_congr_left
  intro d hd
  rcases List.mem_filter.mp hd with ⟨-, hp⟩
  rw [Bool.and_eq_true] at hp
  rw [if_pos hp.1]
  exact projector_pointwise imports sort d

theorem claim_C4_witness :
    filterImportedDefinitions ["Type.fieldA"] [sampleObj "Type" ["fieldA", "fieldB"]] [] false =
      projectorSpec ["Type.fieldA"] [sampleObj "Type" ["fieldA", "fieldB"]] false :=
  (claim_C4 ["Type.fieldA"] [sampleObj "Type" ["fieldA", "fieldB"]] [] false (by decide)
    (by decide)).1

/-- One absorption fold of the spec's merge: the canonical definition `d`
absorbs, in order, the later occurrences of its name; a later occurrence is
merged only when both it and the canonical definition are field-bearing,
by unioning the field lists de-duplicated by field name (first seen kept),
re-sorted when the sort option is on. -/
def specAbsorb (sort : Bool) (d : DefinitionNode) (ts : List DefinitionNode) : DefinitionNode :=
  ts.foldl
    (fun acc t =>
      if acc.fields.isSome && t.fields.isSome then
        { acc with
          fields := some
            (if sort then sortNodes (uniqByName (acc.fields.getD [] ++ t.fields.getD []))
            else uniqByName (acc.fields.getD [] ++ t.fields.getD [])) }
      else acc)
    d

/-- The merge the spec describes, name by name: the first occurrence of
each name is canonical; each later occurrence of the same name, when both
it and the canonical definition are field-bearing, unions its fields into
the canonical field list per `specAbsorb`.  Unnamed candidates are not
kept by the walk. -/
def mergeSpec (sort : Bool) : List DefinitionNode → List DefinitionNode
  | [] => []
  | d :: ds =>
    if d.name.isSome then
      specAbsorb sort d (ds.filter (fun e => e.name.isSome && nameV e == nameV d)) ::
        mergeSpec sort (ds.filter (fun e => !(e.name.isSome && nameV e == nameV d)))
    else mergeSpec sort ds
termination_by l => l.length
decreasing_by
  · simp only [List.length_cons]
    exact Nat.lt_succ_of_le (List.length_filter_le _ ds)
  · simp only [List.length_cons]
    exact Nat.lt_succ_of_le (Nat.le_refl ds.length)

/-- The in-place mutation the merging loop applies to the canonical
definition when a later duplicate `ty` of its name arrives. -/
def mergeFieldsInto (sort : Bool) (ty ex : DefinitionNode) : DefinitionNode :=
  match ex.fields with
  | some efs =>
    { ex with
      fields := some
        (if sort then sortNodes (uniqByName (efs ++ ty.fields.getD []))
        else uniqByName (efs ++ ty.fields.getD [])) }
  | none => ex

lemma mergeStep_eq (sort : Bool) (st : List String × List DefinitionNode)
    (ty : DefinitionNode) :
    mergeStep sort st ty =
      if ty.name.isSome then
        if st.1.contains (nameV ty) then
          (st.1, updateFirstNamed (nameV ty) (mergeFieldsInto sort ty) st.2)
        else (st.1 ++ [nameV ty], st.2 ++ [ty])
      else st := rfl

lemma mergeFieldsInto_name (sort : Bool) (ty ex : DefinitionNode) :
    (mergeFieldsInto sort ty ex).name = ex.name := by
  unfold mergeFieldsInto
  cases ex.fields <;> rfl

lemma mergeFieldsInto_isSome (sort : Bool) (ty ex : DefinitionNode) :
    (mergeFieldsInto sort ty ex).fields.isSome = ex.fields.isSome := by
  unfold mergeFieldsInto
  cases h : ex.fields with
  | none => rw [h]
  | some efs => rfl

lemma mergeFieldsInto_eq_step (sort : Bool) (c m : DefinitionNode)
    (h : m.fields.isSome = c.fields.isSome) :
    mergeFieldsInto sort c m =
      (if m.fields.isSome && c.fields.isSome then
        { m with
          fields := some
            (if sort then sortNodes (uniqByName (m.fields.getD [] ++ c.fields.getD []))
            else uniqByName (m.fields.getD [] ++ c.fields.getD [])) }
      else m) := by
  unfold mergeFieldsInto
  cases hm : m.fields with
  | none =>
    rw [hm] at h
    cases hc : c.fields with
    | none => rfl
    | some tfs => rw [hc] at h; simp at h
  | some efs =>
    rw [hm] at h
    cases hc : c.fields with
    | none => rw [hc] at h; simp at h
    | some tfs => simp

lemma specAbsorb_nil (sort : Bool) (d : DefinitionNode) : specAbsorb sort d [] = d := rfl

lemma specAbsorb_cons (sort : Bool) (d t : DefinitionNode) (ts : List DefinitionNode) :
    specAbsorb sort d (t :: ts) =
      specAbsorb sort
        (if d.fields.isSome && t.fields.isSome then
          { d with
            fields := some
              (if sort then sortNodes (uniqByName (d.fields.getD [] ++ t.fields.getD []))
              else uniqByName (d.fields.getD [] ++ t.fields.getD [])) }
        else d) ts := rfl

lemma filterMap_name_eq_map_nameV (ms : List DefinitionNode)
    (h : ∀ m ∈ ms, m.name.isSome = true) :
    ms.filterMap DefinitionNode.name = ms.map nameV := by
  induction ms with
  | nil => rfl
  | cons m ms ih =>
    rcases Option.isSome_iff_exists.mp (h m (List.mem_cons_self m ms)) with ⟨a, ha⟩
    simp only [List.filterMap_cons, ha, List.map_cons, nameV, Option.getD_some]
    exact congrArg (a :: ·) (ih fun g hg => h g (List.mem_cons_of_mem m hg))

lemma mergeSpec_cons_unnamed (sort : Bool) (c : DefinitionNode) (X : List DefinitionNode)
    (h : c.name.isSome = false) : mergeSpec sort (c :: X) = mergeSpec sort X := by
  rw [mergeSpec]
  simp [h]

lemma mergeSpec_cons_named (sort : Bool) (c : DefinitionNode) (X : List DefinitionNode)
    (h : c.name.isSome = true) :
    mergeSpec sort (c :: X) =
      specAbsorb sort c (X.filter (fun e => e.name.isSome && nameV e == nameV c)) ::
        mergeSpec sort (X.filter (fun e => !(e.name.isSome && nameV e == nameV c))) := by
  rw [mergeSpec]
  simp [h]

lemma contains_append_singleton (l : List String) (x y : String) :
    (l ++ [x]).contains y = (l.contains y || y == x) := by
  rw [Bool.eq_iff_iff]
  simp

lemma nameV_congr (a b : DefinitionNode) (h : a.name = b.name) : nameV a = nameV b := by
  rw [nameV, nameV, h]

lemma mergeWalk_aux (sort : Bool) :
    ∀ (cs ms : List DefinitionNode),
      (∀ m ∈ ms, m.name.isSome = true) →
      ((ms.map nameV).Nodup) →
      (∀ m ∈ ms, ∀ c ∈ cs, c.name.isSome = true → nameV m = nameV c →
        m.fields.isSome = c.fields.isSome) →
      (∀ c1 ∈ cs, ∀ c2 ∈ cs, c1.name.isSome = true → c2.name.isSome = true →
        nameV c1 = nameV c2 → c1.fields.isSome = c2.fields.isSome) →
      (cs.foldl (mergeStep sort) (ms.map nameV, ms)).2 =
        ms.map (fun m =>
          specAbsorb sort m (cs.filter (fun c => c.name.isSome && nameV c == nameV m))) ++
          mergeSpec sort
            (cs.filter (fun c => !(c.name.isSome && (ms.map nameV).contains (nameV c)))) := by
  intro cs
  induction cs with
  | nil =>
    intro ms h1 h2 h3 h4
    simp [mergeSpec, specAbsorb]
  | cons c cs ih =>
    intro ms h1 h2 h3 h4
    rw [List.foldl_cons, mergeStep_eq]
    by_cases hcn : c.name.isSome = true
    · rw [if_pos hcn]
      by_cases hct : ((ms.map nameV).contains (nameV c)) = true
      · rw [if_pos hct]
        have hnmsd : (ms.filterMap DefinitionNode.name).Nodup := by
          rw [filterMap_name_eq_map_nameV ms h1]
          exact h2
        rw [updateFirstNamed_eq_map (nameV c) (mergeFieldsInto sort c) ms hnmsd]
        set ms' := ms.map (fun m =>
          if (m.name.isSome && nameV m == nameV c) = true then mergeFieldsInto sort c m
          else m) with hms'
        have hname1 : ∀ m : DefinitionNode,
            (if (m.name.isSome && nameV m == nameV c) = true then mergeFieldsInto sort c m
              else m).name = m.name := by
          intro m
          by_cases h : (m.name.isSome && nameV m == nameV c) = true
          · rw [if_pos h, mergeFieldsInto_name]
          · rw [if_neg h]
        have hisSome1 : ∀ m : DefinitionNode,
            (if (m.name.isSome && nameV m == nameV c) = true then mergeFieldsInto sort c m
              else m).fields.isSome = m.fields.isSome := by
          intro m
          by_cases h : (m.name.isSome && nameV m == nameV c) = true
          · rw [if_pos h, mergeFieldsInto_isSome]
          · rw [if_neg h]
        have hmapname : ms'.map nameV = ms.map nameV := by
          rw [hms', List.map_map]
          apply List.map_congr_left
          intro m _
          exact nameV_congr _ _ (hname1 m)
        rw [show ms.map nameV = ms'.map nameV from hmapname.symm]
        have h1' : ∀ m' ∈ ms', m'.name.isSome = true := by
          intro m' hm'
          rw [hms'] at hm'
          rcases List.mem_map.mp hm' with ⟨m, hm, rfl⟩
          rw [show (if (m.name.isSome && nameV m == nameV c) = true then
              mergeFieldsInto sort c m else m).name = m.name from hname1 m]
          exact h1 m hm
        have h2' : (ms'.map nameV).Nodup := by
          rw [hmapname]
          exact h2
        have h3' : ∀ m' ∈ ms', ∀ c' ∈ cs, c'.name.isSome = true → nameV m' = nameV c' →
            m'.fields.isSome = c'.fields.isSome := by
          intro m' hm' c' hc' hcn' hnv
          rw [hms'] at hm'
          rcases List.mem_map.mp hm' with ⟨m, hm, rfl⟩
          rw [hisSome1 m]
          apply h3 m hm c' (List.mem_cons_of_mem c hc') hcn'
          rw [← hnv]
          exact (nameV_congr _ _ (hname1 m)).symm
        have h4' : ∀ c1 ∈ cs, ∀ c2 ∈ cs, c1.name.isSome = true → c2.name.isSome = true →
            nameV c1 = nameV c2 → c1.fields.isSome = c2.fields.isSome := by
          intro c1 hc1 c2 hc2
          exact h4 c1 (List.mem_cons_of_mem c hc1) c2 (List.mem_cons_of_mem c hc2)
        rw [ih ms' h1' h2' h3' h4']
        congr 1
        · rw [hms', List.map_map]
          apply List.map_congr_left
          intro m hm
          simp only [Function.comp_apply]
          have hnv : nameV (if (m.name.isSome && nameV m == nameV c) = true then
              mergeFieldsInto sort c m else m) = nameV m := nameV_congr _ _ (hname1 m)
          simp only [hnv]
          by_cases hmc : (m.name.isSome && nameV m == nameV c) = true
          · rw [if_pos hmc]
            have hmnv : nameV m = nameV c := by
              rw [Bool.and_eq_true] at hmc
              simpa using hmc.2
            have hcond : (c.name.isSome && nameV c == nameV m) = true := by
              rw [hcn, Bool.true_and, hmnv]
              simp
            rw [List.filter_cons, if_pos hcond, specAbsorb_cons]
            rw [mergeFieldsInto_eq_step sort c m
              (h3 m hm c (List.mem_cons_self c cs) hcn hmnv)]
          · rw [if_neg hmc]
            have hmnv : ¬nameV m = nameV c := by
              rw [Bool.and_eq_true] at hmc
              intro h
              exact hmc ⟨h1 m hm, by simpa using h⟩
            have hcond : (c.name.isSome && nameV c == nameV m) = false := by
              rw [hcn, Bool.true_and]
              simp only [beq_eq_false_iff_ne, ne_eq]
              exact fun h => hmnv h.symm
            rw [List.filter_cons, if_neg (by rw [hcond]; exact Bool.false_ne_true)]
        · have hct' : ((ms'.map nameV).contains (nameV c)) = true := by
            rw [hmapname]
            exact hct
          rw [List.filter_cons,
            if_neg (by rw [hcn, Bool.true_and, hct']; exact (by decide : ¬((!true) = true)))]
      · have hctf : ((ms.map nameV).contains (nameV c)) = false := by simpa using hct
        rw [if_neg (by rw [hctf]; exact Bool.false_ne_true)]
        have hmapapp : (ms.map nameV) ++ [nameV c] = (ms ++ [c]).map nameV := by
          rw [List.map_append]
          rfl
        rw [hmapapp]
        have h1'' : ∀ m ∈ ms ++ [c], m.name.isSome = true := by
          intro m hm
          rcases List.mem_append.mp hm with h | h
          · exact h1 m h
          · rw [List.mem_singleton.mp h]
            exact hcn
        have hnotin : nameV c ∉ ms.map nameV := by simpa using hctf
        have h2'' : ((ms ++ [c]).map nameV).Nodup := by
          rw [List.map_append]
          simp only [List.map_cons, List.map_nil]
          rw [List.nodup_append]
          exact ⟨h2, List.nodup_singleton _, by
            intro a ha
            simp only [List.mem_singleton]
            intro he
            rw [he] at ha
            exact hnotin ha⟩
        have h3'' : ∀ m ∈ ms ++ [c], ∀ c' ∈ cs, c'.name.isSome = true → nameV m = nameV c' →
            m.fields.isSome = c'.fields.isSome := by
          intro m hm c' hc' hcn' hnv
          rcases List.mem_append.mp hm with h | h
          · exact h3 m h c' (List.mem_cons_of_mem c hc') hcn' hnv
          · rw [List.mem_singleton.mp h]
            rw [List.mem_singleton.mp h] at hnv
            exact h4 c (List.mem_cons_self c cs) c' (List.mem_cons_of_mem c hc') hcn hcn' hnv
        have h4'' : ∀ c1 ∈ cs, ∀ c2 ∈ cs, c1.name.isSome = true → c2.name.isSome = true →
            nameV c1 = nameV c2 → c1.fields.isSome = c2.fields.isSome := by
          intro c1 hc1 c2 hc2
          exact h4 c1 (List.mem_cons_of_mem c hc1) c2 (List.mem_cons_of_mem c hc2)
        rw [ih (ms ++ [c]) h1'' h2'' h3'' h4'']
        rw [List.map_append]
        simp only [List.map_cons, List.map_nil]
        rw [List.append_assoc]
        have hPc : (!(c.name.isSome && (ms.map nameV).contains (nameV c))) = true := by
          rw [hcn, Bool.true_and, hctf]
          rfl
        rw [List.filter_cons, if_pos hPc, mergeSpec_cons_named sort c _ hcn]
        congr 1
        · apply List.map_congr_left
          intro m hm
          congr 1
          have hne : ¬nameV c = nameV m := fun h =>
            hnotin (h ▸ List.mem_map_of_mem nameV hm)
          have hcond : (c.name.isSome && nameV c == nameV m) = false := by
            rw [hcn, Bool.true_and]
            simp only [beq_eq_false_iff_ne, ne_eq]
            exact hne
          rw [List.filter_cons, if_neg (by rw [hcond]; exact Bool.false_ne_true)]
        · rw [List.singleton_append, List.filter_filter, List.filter_filter]
          congr 1
          · congr 1
            apply List.filter_congr
            intro e _
            cases hb1 : e.name.isSome
            · simp
            · cases hb2 : (nameV e == nameV c)
              · simp
              · have he : nameV e = nameV c := by simpa using hb2
                rw [he, hctf]
                simp
          · congr 1
            apply List.filter_congr
            intro e _
            rw [← hmapapp, contains_append_singleton]
            cases hb1 : e.name.isSome
            · simp
            · cases hb2 : (nameV e == nameV c) <;>
                cases hb3 : (ms.map nameV).contains (nameV e) <;> simp [hb1, hb2, hb3]
    · have hcnf : c.name.isSome = false := by simpa using hcn
      rw [if_neg (by rw [hcnf]; exact Bool.false_ne_true)]
      rw [ih ms h1 h2 (fun m hm c' hc' => h3 m hm c' (List.mem_cons_of_mem c hc'))
        (fun c1 h1' c2 h2' => h4 c1 (List.mem_cons_of_mem c h1') c2
          (List.mem_cons_of_mem c h2'))]
      congr 1
      · apply List.map_congr_left
        intro m _
        congr 1
        rw [List.filter_cons, if_neg (by rw [hcnf, Bool.false_and]; exact Bool.false_ne_true)]
      · rw [List.filter_cons, if_pos (by rw [hcnf]; rfl)]
        rw [mergeSpec_cons_unnamed sort c _ hcnf]

/-- C1: the Cross-File Merger's candidate set is, in order, the flattened
per-document projected definitions, then the entry document's projection
again, then the flattened non-entry projections again; and walking that
concatenation once keyed by name keeps the first occurrence of each name as
canonical and, for every later occurrence of the same name with both
definitions field-bearing, unions its fields into the canonical field list
de-duplicated by field name with the first-seen field retained, re-sorted
by the shared comparison rule when the sort option is on (`mergeSpec`).
The homogeneity hypothesis — same-named candidates agree on being
field-bearing — reflects that the claim only describes collisions between
field-bearing definitions (and parsed GraphQL documents do not merge a
field-bearing with a non-field-bearing definition of one name). -/
theorem claim_C1 (sort : Bool) (td : List (List DefinitionNode)) (cs : List DefinitionNode)
    (hhom : ∀ c1 ∈ cs, ∀ c2 ∈ cs, c1.name.isSome = true → c2.name.isSome = true →
      nameV c1 = nameV c2 → c1.fields.isSome = c2.fields.isSome) :
    processImportSyntaxMerge sort td =
        mergeWalk sort (td.flatten ++ td.headD [] ++ (td.drop 1).flatten) ∧
      mergeWalk sort cs = mergeSpec sort cs := by
  constructor
  · rfl
  · unfold mergeWalk
    have h := mergeWalk_aux sort cs [] (by intro m hm; simp at hm) (by simp)
      (by intro m hm; simp at hm) hhom
    simp only [List.map_nil, List.nil_append] at h
    have hfil : cs.filter
        (fun c => !(c.name.isSome && ([] : List String).contains (nameV c))) = cs := by
      apply List.filter_eq_self.mpr
      intro a _
      simp
    rw [hfil] at h
    exact h

theorem claim_C1_witness :
    mergeWalk false
        [sampleObj "A" ["a"], sampleScalar "S", sampleObj "A" ["b"], sampleObj "A" ["a"]] =
      mergeSpec false
        [sampleObj "A" ["a"], sampleScalar "S", sampleObj "A" ["b"], sampleObj "A" ["a"]] :=
  (claim_C1 false []
    [sampleObj "A" ["a"], sampleScalar "S", sampleObj "A" ["b"], sampleObj "A" ["a"]]
    (by decide)).2

/-- The records stored under a path in the processed map (`Map.get`, absent
folded to `[]`). -/
def lookupRecords (pf : List (String × List RawModule)) (p : String) : List RawModule :=
  ((pf.find? (fun e => e.1 == p)).map Prod.snd).getD []

/-- The list-level `Map.set`. -/
def setRecords (pf : List (String × List RawModule)) (p : String) (ms : List RawModule) :
    List (String × List RawModule) :=
  if (pf.map Prod.fst).contains p then pf.map (fun e => if e.1 = p then (p, ms) else e)
  else pf ++ [(p, ms)]

lemma processedFor_eq (st : TraversalState) (p : String) :
    processedFor st p = lookupRecords st.processedFiles p := rfl

lemma setProcessed_processedFiles (st : TraversalState) (p : String) (ms : List RawModule) :
    (setProcessed st p ms).processedFiles = setRecords st.processedFiles p ms := rfl

lemma pairsOf_append (a b : List (String × List RawModule)) :
    pairsOf (a ++ b) = pairsOf a ++ pairsOf b := by
  unfold pairsOf
  rw [List.flatMap_append]

lemma keys_setRecords (pf : List (String × List RawModule)) (p : String)
    (ms : List RawModule) :
    (setRecords pf p ms).map Prod.fst =
      if (pf.map Prod.fst).contains p then pf.map Prod.fst else pf.map Prod.fst ++ [p] := by
  unfold setRecords
  by_cases h : ((pf.map Prod.fst).contains p) = true
  · rw [if_pos h, if_pos h, List.map_map]
    apply List.map_congr_left
    intro e _
    by_cases hep : e.1 = p <;> simp [hep]
  · rw [if_neg h, if_neg h, List.map_append]
    rfl

lemma fst_mem_of_mem_pairsOf (pf : List (String × List RawModule))
    (q : String) (r : RawModule) (h : (q, r) ∈ pairsOf pf) : q ∈ pf.map Prod.fst := by
  unfold pairsOf at h
  rcases List.mem_flatMap.mp h with ⟨e, he, hqr⟩
  rcases List.mem_map.mp hqr with ⟨m, _, hm⟩
  rcases Prod.mk.injEq .. ▸ hm with h'
  have : e.1 = q := congrArg Prod.fst hm
  rw [← this]
  exact List.mem_map_of_mem Prod.fst he

lemma mem_pairsOf_iff (pf : List (String × List RawModule)) (p : String) (m : RawModule)
    (hk : (pf.map Prod.fst).Nodup) :
    (p, m) ∈ pairsOf pf ↔ m ∈ lookupRecords pf p := by
  induction pf with
  | nil => simp [pairsOf, lookupRecords]
  | cons e pf ih =>
    simp only [List.map_cons, List.nodup_cons] at hk
    have hblock : pairsOf (e :: pf) = e.2.map (fun m => (e.1, m)) ++ pairsOf pf := rfl
    by_cases hep : e.1 = p
    · have hfind : lookupRecords (e :: pf) p = e.2 := by
        unfold lookupRecords
        rw [List.find?_cons, show (e.1 == p) = true from by simp [hep]]
        rfl
      rw [hfind, hblock]
      constructor
      · intro h
        rcases List.mem_append.mp h with h | h
        · rcases List.mem_map.mp h with ⟨m', hm', hmm⟩
          have : m' = m := congrArg Prod.snd hmm
          rw [← this]
          exact hm'
        · exact absurd (hep ▸ fst_mem_of_mem_pairsOf pf p m h) hk.1
      · intro h
        apply List.mem_append.mpr
        exact Or.inl (by rw [← hep]; exact List.mem_map_of_mem _ h)
    · have hfind : lookupRecords (e :: pf) p = lookupRecords pf p := by
        unfold lookupRecords
        rw [List.find?_cons, show (e.1 == p) = false from by simp [hep]]
      rw [hfind, hblock]
      constructor
      · intro h
        rcases List.mem_append.mp h with h | h
        · rcases List.mem_map.mp h with ⟨m', _, hmm⟩
          exact absurd (congrArg Prod.fst hmm) fun he => hep he
        · exact (ih hk.2).mp h
      · intro h
        exact List.mem_append.mpr (Or.inr ((ih hk.2).mpr h))

/-- Recording a fresh import record under a path inserts exactly one pair
into the flattened processed-pair list, at the end of that path's block. -/
lemma pairsOf_setRecords (pf : List (String × List RawModule)) (p : String) (m : RawModule)
    (hk : ((pf.map Prod.fst).Nodup)) :
    ∃ l1 l2, pairsOf pf = l1 ++ l2 ∧
      pairsOf (setRecords pf p (lookupRecords pf p ++ [m])) = l1 ++ (p, m) :: l2 := by
  induction pf with
  | nil =>
    refine ⟨[], [], rfl, ?_⟩
    simp [setRecords, lookupRecords, pairsOf]
  | cons e pf ih =>
    simp only [List.map_cons, List.nodup_cons] at hk
    have hblock : ∀ x : List (String × List RawModule), pairsOf (e :: x) =
        e.2.map (fun m => (e.1, m)) ++ pairsOf x := fun x => rfl
    by_cases hep : e.1 = p
    · have hlook : lookupRecords (e :: pf) p = e.2 := by
        unfold lookupRecords
        rw [List.find?_cons, show (e.1 == p) = true from by simp [hep]]
        rfl
      have hcont : (((e :: pf).map Prod.fst).contains p) = true := by
        simp [hep.symm]
      have hset : setRecords (e :: pf) p (e.2 ++ [m]) =
          (p, e.2 ++ [m]) :: pf := by
        unfold setRecords
        rw [if_pos hcont, List.map_cons, if_pos hep]
        congr 1
        have : ∀ x ∈ pf, (if x.1 = p then (p, e.2 ++ [m]) else x) = x := by
          intro x hx
          rw [if_neg]
          intro hxp
          exact hk.1 (by rw [← hep] at hxp; exact hxp ▸ List.mem_map_of_mem Prod.fst hx)
        calc pf.map (fun x => if x.1 = p then (p, e.2 ++ [m]) else x)
            = pf.map id := List.map_congr_left fun x hx => by rw [this x hx]; rfl
          _ = pf := List.map_id pf
      refine ⟨e.2.map (fun m => (e.1, m)), pairsOf pf, hblock pf, ?_⟩
      rw [hlook, hset]
      have : pairsOf ((p, e.2 ++ [m]) :: pf) =
          (e.2 ++ [m]).map (fun m => (p, m)) ++ pairsOf pf := rfl
      rw [this, List.map_append]
      simp [hep]
    · have hlook : lookupRecords (e :: pf) p = lookupRecords pf p := by
        unfold lookupRecords
        rw [List.find?_cons, show (e.1 == p) = false from by simp [hep]]
      by_cases hc : ((pf.map Prod.fst).contains p) = true
      · have hset : setRecords (e :: pf) p (lookupRecords pf p ++ [m]) =
            e :: setRecords pf p (lookupRecords pf p ++ [m]) := by
          unfold setRecords
          rw [if_pos (by simp only [List.map_cons, List.contains_cons]; rw [hc]; simp),
            if_pos hc, List.map_cons, if_neg hep]
        rcases ih hk.2 with ⟨l1, l2, hpf, hpf'⟩
        refine ⟨e.2.map (fun m => (e.1, m)) ++ l1, l2, ?_, ?_⟩
        · rw [hblock pf, hpf, List.append_assoc]
        · rw [hlook, hset, hblock (setRecords pf p (lookupRecords pf p ++ [m])), hpf',
            List.append_assoc]
      · have hpe : (p == e.1) = false := by
          simp only [beq_eq_false_iff_ne, ne_eq]
          exact fun h => hep h.symm
        have hcf : ((pf.map Prod.fst).contains p) = false := by simpa using hc
        have hcontf : (((e :: pf).map Prod.fst).contains p) = false := by
          simp only [List.map_cons, List.contains_cons, hpe, hcf]
          rfl
        have hlooknil : lookupRecords pf p = [] := by
          unfold lookupRecords
          have hnone : pf.find? (fun e => e.1 == p) = none := by
            rw [List.find?_eq_none]
            intro x hx hbeq
            have hxp : x.1 = p := by simpa using hbeq
            have hmem : p ∈ pf.map Prod.fst := hxp ▸ List.mem_map_of_mem Prod.fst hx
            exact absurd hmem (by simpa using hc)
          rw [hnone]
          rfl
        have hset : setRecords (e :: pf) p (lookupRecords (e :: pf) p ++ [m]) =
            (e :: pf) ++ [(p, [m])] := by
          unfold setRecords
          rw [if_neg (by rw [hcontf]; exact Bool.false_ne_true)]
          rw [hlook, hlooknil]
          rfl
        refine ⟨pairsOf (e :: pf), [], by rw [List.append_nil], ?_⟩
        rw [hset, pairsOf_append]
        rfl

lemma length_le_of_nodup_subset {α : Type} [DecidableEq α] (l1 l2 : List α)
    (h1 : l1.Nodup) (hsub : ∀ x ∈ l1, x ∈ l2) : l1.length ≤ l2.length := by
  calc l1.length = l1.toFinset.card := (List.toFinset_card_of_nodup h1).symm
    _ ≤ l2.toFinset.card := Finset.card_le_card fun x hx =>
        List.mem_toFinset.mpr (hsub x (List.mem_toFinset.mp hx))
    _ ≤ l2.length := l2.toFinset_card_le

lemma length_pairsOf_setRecords (pf : List (String × List RawModule)) (p : String)
    (m : RawModule) (hk : ((pf.map Prod.fst).Nodup)) :
    (pairsOf (setRecords pf p (lookupRecords pf p ++ [m]))).length =
      (pairsOf pf).length + 1 := by
  rcases pairsOf_setRecords pf p m hk with ⟨l1, l2, h1, h2⟩
  rw [h1, h2]
  simp [List.length_append]
  omega

lemma nodup_pairsOf_setRecords (pf : List (String × List RawModule)) (p : String)
    (m : RawModule) (hk : ((pf.map Prod.fst).Nodup)) (hnd : (pairsOf pf).Nodup)
    (hnew : m ∉ lookupRecords pf p) :
    (pairsOf (setRecords pf p (lookupRecords pf p ++ [m]))).Nodup := by
  rcases pairsOf_setRecords pf p m hk with ⟨l1, l2, h1, h2⟩
  rw [h2, List.nodup_middle]
  rw [List.nodup_cons]
  constructor
  · rw [← h1]
    intro hmem
    exact hnew ((mem_pairsOf_iff pf p m hk).mp hmem)
  · rw [← h1]
    exact hnd

lemma mem_pairsOf_setRecords (pf : List (String × List RawModule)) (p : String)
    (m : RawModule) (x : String × RawModule) (hk : ((pf.map Prod.fst).Nodup))
    (hx : x ∈ pairsOf (setRecords pf p (lookupRecords pf p ++ [m]))) :
    x ∈ pairsOf pf ∨ x = (p, m) := by
  rcases pairsOf_setRecords pf p m hk with ⟨l1, l2, h1, h2⟩
  rw [h2] at hx
  rcases List.mem_append.mp hx with h | h
  · exact Or.inl (h1 ▸ List.mem_append.mpr (Or.inl h))
  · rcases List.mem_cons.mp h with h | h
    · exact Or.inr h
    · exact Or.inl (h1 ▸ List.mem_append.mpr (Or.inr h))

lemma keys_nodup_setRecords (pf : List (String × List RawModule)) (p : String)
    (ms : List RawModule) (hk : ((pf.map Prod.fst).Nodup)) :
    ((setRecords pf p ms).map Prod.fst).Nodup := by
  rw [keys_setRecords]
  by_cases h : ((pf.map Prod.fst).contains p) = true
  · rw [if_pos h]
    exact hk
  · rw [if_neg h]
    rw [List.nodup_append]
    refine ⟨hk, List.nodup_singleton _, ?_⟩
    intro a ha
    simp only [List.mem_singleton]
    intro he
    rw [he] at ha
    have hp : p ∉ pf.map Prod.fst := by simpa using h
    exact hp ha

lemma pair_mem_universe (options : LoadOptions) (entry src : Source) (m : RawModule)
    (hsrc : src = entry ∨ src ∈ options.files.map Prod.snd) (hm : m ∈ modulesOf src) :
    (resolveModuleFilePath options.pathEnv options.cwd options.hasFsPath src.location m.from', m)
      ∈ pairUniverse options entry := by
  unfold pairUniverse
  apply List.mem_flatMap.mpr
  refine ⟨src, ?_, List.mem_map_of_mem _ hm⟩
  rcases hsrc with h | h
  · rw [h]
    exact List.mem_cons_self _ _
  · exact List.mem_cons_of_mem _ h

lemma loadSingleFile_mem (options : LoadOptions) (p : String) (src : Source)
    (h : loadSingleFile options p = some src) : src ∈ options.files.map Prod.snd := by
  unfold loadSingleFile at h
  cases hf : options.files.find? (fun e => e.1 == p) with
  | none => rw [hf] at h; exact absurd h (by simp)
  | some e =>
    rw [hf] at h
    have he : e ∈ options.files := List.mem_of_find?_eq_some hf
    have : e.2 = src := by simpa using h
    rw [← this]
    exact List.mem_map_of_mem Prod.snd he

/-- The state invariant of a resolution pass: the processed map has
distinct keys, the recorded import edges are pairwise distinct, and every
recorded edge lies in the finite edge universe of the pass. -/
def StWF (options : LoadOptions) (entry : Source) (st : TraversalState) : Prop :=
  ((st.processedFiles.map Prod.fst).Nodup) ∧ ((pairsOf st.processedFiles).Nodup) ∧
    ∀ pm ∈ pairsOf st.processedFiles, pm ∈ pairUniverse options entry

/-- One `visitModule` edge preserves the state invariant; the edge either
skips (equal record already registered) or records exactly one fresh pair
and recurses, so the growth of `allDefinitions` equals the growth of the
recorded edge list. -/
lemma visitModule_ok (options : LoadOptions) (entry src : Source)
    (recurse : List String → Source → TraversalState → Except TravError TraversalState)
    (m : RawModule) (stc stm : TraversalState)
    (hrec : ∀ imp s stx std, StWF options entry stx →
      s ∈ options.files.map Prod.snd →
      recurse imp s stx = Except.ok std →
      StWF options entry std ∧
        (pairsOf stx.processedFiles).length ≤ (pairsOf std.processedFiles).length ∧
        std.allDefinitions.length + (pairsOf stx.processedFiles).length =
          stx.allDefinitions.length + 1 + (pairsOf std.processedFiles).length)
    (hsrc : src = entry ∨ src ∈ options.files.map Prod.snd)
    (hm : m ∈ modulesOf src)
    (hwf : StWF options entry stc)
    (hv : visitModule options src recurse stc m = Except.ok stm) :
    StWF options entry stm ∧
      (pairsOf stc.processedFiles).length ≤ (pairsOf stm.processedFiles).length ∧
      stm.allDefinitions.length + (pairsOf stc.processedFiles).length =
        stc.allDefinitions.length + (pairsOf stm.processedFiles).length := by
  unfold visitModule at hv
  by_cases hskip : ((processedFor stc
      (resolveModuleFilePath options.pathEnv options.cwd options.hasFsPath
        src.location m.from')).contains m) = true
  · rw [if_pos hskip] at hv
    have he : stc = stm := by simpa using hv
    rw [← he]
    exact ⟨hwf, Nat.le_refl _, rfl⟩
  · rw [if_neg hskip] at hv
    cases hload : loadSingleFile options
        (resolveModuleFilePath options.pathEnv options.cwd options.hasFsPath
          src.location m.from') with
    | none =>
      rw [hload] at hv
      exact absurd hv (by simp)
    | some result =>
      rw [hload] at hv
      have hnew : m ∉ lookupRecords stc.processedFiles
          (resolveModuleFilePath options.pathEnv options.cwd options.hasFsPath
            src.location m.from') := by
        rw [← processedFor_eq]
        simpa using hskip
      have hPu : (resolveModuleFilePath options.pathEnv options.cwd options.hasFsPath
          src.location m.from', m) ∈ pairUniverse options entry :=
        pair_mem_universe options entry src m hsrc hm
      have hwf2 : StWF options entry (setProcessed stc
          (resolveModuleFilePath options.pathEnv options.cwd options.hasFsPath
            src.location m.from')
          (processedFor stc
            (resolveModuleFilePath options.pathEnv options.cwd options.hasFsPath
              src.location m.from') ++ [m])) := by
        rw [StWF, setProcessed_processedFiles, processedFor_eq]
        refine ⟨keys_nodup_setRecords _ _ _ hwf.1,
          nodup_pairsOf_setRecords _ _ _ hwf.1 hwf.2.1 hnew, ?_⟩
        intro pm hpm
        rcases mem_pairsOf_setRecords _ _ _ pm hwf.1 hpm with h | h
        · exact hwf.2.2 pm h
        · rw [h]
          exact hPu
      have hres := hrec m.imports result _ stm hwf2
        (loadSingleFile_mem options _ result hload) hv
      have hlen : (pairsOf (setProcessed stc
          (resolveModuleFilePath options.pathEnv options.cwd options.hasFsPath
            src.location m.from')
          (processedFor stc
            (resolveModuleFilePath options.pathEnv options.cwd options.hasFsPath
              src.location m.from') ++ [m])).processedFiles).length =
          (pairsOf stc.processedFiles).length + 1 := by
        rw [setProcessed_processedFiles, processedFor_eq]
        exact length_pairsOf_setRecords _ _ _ hwf.1
      have ha : (setProcessed stc
          (resolveModuleFilePath options.pathEnv options.cwd options.hasFsPath
            src.location m.from')
          (processedFor stc
            (resolveModuleFilePath options.pathEnv options.cwd options.hasFsPath
              src.location m.from') ++ [m])).allDefinitions = stc.allDefinitions := rfl
      have h1 := hres.2.1
      have h2 := hres.2.2
      rw [hlen] at h1 h2
      rw [ha] at h2
      exact ⟨hres.1, by omega, by omega⟩

/-- A fold of `visitModule` over sibling import records preserves the
invariant: the recorded edge list only grows, and `allDefinitions` grows by
exactly as many documents as edges were recorded. -/
lemma foldl_visitModule_ok (options : LoadOptions) (entry src : Source)
    (recurse : List String → Source → TraversalState → Except TravError TraversalState)
    (hrec : ∀ imp s stx std, StWF options entry stx →
      s ∈ options.files.map Prod.snd →
      recurse imp s stx = Except.ok std →
      StWF options entry std ∧
        (pairsOf stx.processedFiles).length ≤ (pairsOf std.processedFiles).length ∧
        std.allDefinitions.length + (pairsOf stx.processedFiles).length =
          stx.allDefinitions.length + 1 + (pairsOf std.processedFiles).length)
    (hsrc : src = entry ∨ src ∈ options.files.map Prod.snd) :
    ∀ (ms : List RawModule), (∀ m ∈ ms, m ∈ modulesOf src) →
      ∀ (stc std : TraversalState), StWF options entry stc →
      ms.foldlM (visitModule options src recurse) stc = Except.ok std →
      StWF options entry std ∧
        (pairsOf stc.processedFiles).length ≤ (pairsOf std.processedFiles).length ∧
        std.allDefinitions.length + (pairsOf stc.processedFiles).length =
          stc.allDefinitions.length + (pairsOf std.processedFiles).length := by
  intro ms
  induction ms with
  | nil =>
    intro _ stc std hwfc hfold
    have h0 : (Except.ok stc : Except TravError TraversalState) = Except.ok std := hfold
    have he : stc = std := by simpa using h0
    rw [← he]
    exact ⟨hwfc, Nat.le_refl _, rfl⟩
  | cons m ms ihm =>
    intro hmem stc std hwfc hfold
    have hfold1 : (visitModule options src recurse stc m >>= fun s =>
        ms.foldlM (visitModule options src recurse) s) = Except.ok std := hfold
    cases hv : visitModule options src recurse stc m with
    | error e =>
      rw [hv] at hfold1
      have h' : (Except.error e : Except TravError TraversalState) = Except.ok std := hfold1
      exact absurd h' (by simp)
    | ok stm =>
      rw [hv] at hfold1
      have hfold2 : ms.foldlM (visitModule options src recurse) stm = Except.ok std := hfold1
      have hstep := visitModule_ok options entry src recurse m stc stm hrec hsrc
        (hmem m (List.mem_cons_self m ms)) hwfc hv
      have hrest := ihm (fun x hx => hmem x (List.mem_cons_of_mem m hx)) stm std hstep.1 hfold2
      have h1 := hstep.2.1
      have h2 := hstep.2.2
      have h3 := hrest.2.1
      have h4 := hrest.2.2
      exact ⟨hrest.1, by omega, by omega⟩

/-- A resolution pass from a well-formed state preserves the invariant,
never shrinks the recorded edge list, and grows `allDefinitions` by one
(the visited document) plus one document per newly recorded edge. -/
lemma collect_preserves (options : LoadOptions) (entry : Source) :
    ∀ (fuel : Nat) (imports : List String) (src : Source) (st st' : TraversalState),
      StWF options entry st →
      (src = entry ∨ src ∈ options.files.map Prod.snd) →
      collectDefinitions options fuel imports src st = Except.ok st' →
      StWF options entry st' ∧
        (pairsOf st.processedFiles).length ≤ (pairsOf st'.processedFiles).length ∧
        st'.allDefinitions.length + (pairsOf st.processedFiles).length =
          st.allDefinitions.length + 1 + (pairsOf st'.processedFiles).length := by
  intro fuel
  induction fuel with
  | zero =>
    intro imports src st st' _ _ h
    exact absurd h (by simp [collectDefinitions])
  | succ fuel ih =>
    intro imports src st st' hwf hsrc h
    have h2 : (match parseSDL src.rawSDL with
        | Except.error msg => Except.error (TravError.malformedImport msg)
        | Except.ok rawModules =>
          rawModules.foldlM
            (visitModule options src
              (fun imp s stx => collectDefinitions options fuel imp s stx))
            ⟨st.typeDefinitions ++ [filterImportedDefinitions imports src.definitions
                (st.allDefinitions ++ [src.definitions]) options.sort],
              st.allDefinitions ++ [src.definitions], st.processedFiles⟩) =
        Except.ok st' := h
    cases hp : parseSDL src.rawSDL with
    | error msg =>
      rw [hp] at h2
      have h3 : (Except.error (TravError.malformedImport msg) :
          Except TravError TraversalState) = Except.ok st' := h2
      exact absurd h3 (by simp)
    | ok rawModules =>
      rw [hp] at h2
      have h3 : rawModules.foldlM
          (visitModule options src
            (fun imp s stx => collectDefinitions options fuel imp s stx))
          ⟨st.typeDefinitions ++ [filterImportedDefinitions imports src.definitions
              (st.allDefinitions ++ [src.definitions]) options.sort],
            st.allDefinitions ++ [src.definitions], st.processedFiles⟩ =
          Except.ok st' := h2
      have hmods : ∀ m ∈ rawModules, m ∈ modulesOf src := by
        intro m hm
        unfold modulesOf
        rw [hp]
        exact hm
      have hrec : ∀ imp s stx std, StWF options entry stx →
          s ∈ options.files.map Prod.snd →
          collectDefinitions options fuel imp s stx = Except.ok std →
          StWF options entry std ∧
            (pairsOf stx.processedFiles).length ≤ (pairsOf std.processedFiles).length ∧
            std.allDefinitions.length + (pairsOf stx.processedFiles).length =
              stx.allDefinitions.length + 1 + (pairsOf std.processedFiles).length :=
        fun imp s stx std hw hs hc => ih imp s stx std hw (Or.inr hs) hc
      have hwf2 : StWF options entry
          (⟨st.typeDefinitions ++ [filterImportedDefinitions imports src.definitions
              (st.allDefinitions ++ [src.definitions]) options.sort],
            st.allDefinitions ++ [src.definitions], st.processedFiles⟩ :
            TraversalState) := hwf
      rcases foldl_visitModule_ok options entry src
          (fun imp s stx => collectDefinitions options fuel imp s stx) hrec hsrc
          rawModules hmods _ st' hwf2 h3 with ⟨hA, hB, hC⟩
      have hBfix : (pairsOf st.processedFiles).length ≤
          (pairsOf st'.processedFiles).length := hB
      have hCfix : st'.allDefinitions.length + (pairsOf st.processedFiles).length =
          (st.allDefinitions ++ [src.definitions]).length +
            (pairsOf st'.processedFiles).length := hC
      have hlen : (st.allDefinitions ++ [src.definitions]).length =
          st.allDefinitions.length + 1 := by simp
      exact ⟨hA, hBfix, by omega⟩

/-- With more fuel than the remaining edge budget (size of the finite edge
universe minus the edges already recorded), a resolution pass never
exhausts its fuel: every recursive call records a fresh edge first, and a
well-formed state can record at most the whole universe. -/
lemma collect_no_fuel_out (options : LoadOptions) (entry : Source) :
    ∀ (fuel : Nat) (imports : List String) (src : Source) (st : TraversalState),
      StWF options entry st →
      (src = entry ∨ src ∈ options.files.map Prod.snd) →
      (pairUniverse options entry).length - (pairsOf st.processedFiles).length < fuel →
      collectDefinitions options fuel imports src st ≠ Except.error TravError.outOfFuel := by
  intro fuel
  induction fuel with
  | zero =>
    intro imports src st _ _ hlt
    exact absurd hlt (Nat.not_lt_zero _)
  | succ fuel ih =>
    intro imports src st hwf hsrc hlt hcontra
    have h2 : (match parseSDL src.rawSDL with
        | Except.error msg => Except.error (TravError.malformedImport msg)
        | Except.ok rawModules =>
          rawModules.foldlM
            (visitModule options src
              (fun imp s stx => collectDefinitions options fuel imp s stx))
            ⟨st.typeDefinitions ++ [filterImportedDefinitions imports src.definitions
                (st.allDefinitions ++ [src.definitions]) options.sort],
              st.allDefinitions ++ [src.definitions], st.processedFiles⟩) =
        Except.error TravError.outOfFuel := hcontra
    cases hp : parseSDL src.rawSDL with
    | error msg =>
      rw [hp] at h2
      have h3 : (Except.error (TravError.malformedImport msg) :
          Except TravError TraversalState) = Except.error TravError.outOfFuel := h2
      simp at h3
    | ok rawModules =>
      rw [hp] at h2
      have h3 : rawModules.foldlM
          (visitModule options src
            (fun imp s stx => collectDefinitions options fuel imp s stx))
          ⟨st.typeDefinitions ++ [filterImportedDefinitions imports src.definitions
              (st.allDefinitions ++ [src.definitions]) options.sort],
            st.allDefinitions ++ [src.definitions], st.processedFiles⟩ =
          Except.error TravError.outOfFuel := h2
      have hmods : ∀ m ∈ rawModules, m ∈ modulesOf src := by
        intro m hm
        unfold modulesOf
        rw [hp]
        exact hm
      have hrec : ∀ imp s stx std, StWF options entry stx →
          s ∈ options.files.map Prod.snd →
          collectDefinitions options fuel imp s stx = Except.ok std →
          StWF options entry std ∧
            (pairsOf stx.processedFiles).length ≤ (pairsOf std.processedFiles).length ∧
            std.allDefinitions.length + (pairsOf stx.processedFiles).length =
              stx.allDefinitions.length + 1 + (pairsOf std.processedFiles).length :=
        fun imp s stx std hw hs hc => collect_preserves options entry fuel imp s stx std hw
          (Or.inr hs) hc
      have inner : ∀ (ms : List RawModule), (∀ m ∈ ms, m ∈ modulesOf src) →
          ∀ (stc : TraversalState), StWF options entry stc →
          (pairUniverse options entry).length - (pairsOf stc.processedFiles).length <
            fuel + 1 →
          ms.foldlM (visitModule options src
            (fun imp s stx => collectDefinitions options fuel imp s stx)) stc ≠
            Except.error TravError.outOfFuel := by
        intro ms
        induction ms with
        | nil =>
          intro _ stc _ _ hcon
          have h0 : (Except.ok stc : Except TravError TraversalState) =
              Except.error TravError.outOfFuel := hcon
          simp at h0
        | cons m ms ihm =>
          intro hmem stc hwfc hltc hcon
          have hcon1 : (visitModule options src
              (fun imp s stx => collectDefinitions options fuel imp s stx) stc m >>=
              fun s => ms.foldlM (visitModule options src
                (fun imp s stx => collectDefinitions options fuel imp s stx)) s) =
              Except.error TravError.outOfFuel := hcon
          cases hv : visitModule options src
              (fun imp s stx => collectDefinitions options fuel imp s stx) stc m with
          | error e =>
            rw [hv] at hcon1
            have he : (Except.error e : Except TravError TraversalState) =
                Except.error TravError.outOfFuel := hcon1
            have he' : e = TravError.outOfFuel := by simpa using he
            rw [he'] at hv
            unfold visitModule at hv
            by_cases hskip : ((processedFor stc
                (resolveModuleFilePath options.pathEnv options.cwd options.hasFsPath
                  src.location m.from')).contains m) = true
            · rw [if_pos hskip] at hv
              simp at hv
            · rw [if_neg hskip] at hv
              cases hload : loadSingleFile options
                  (resolveModuleFilePath options.pathEnv options.cwd options.hasFsPath
                    src.location m.from') with
              | none =>
                rw [hload] at hv
                simp at hv
              | some result =>
                rw [hload] at hv
                have hnew : m ∉ lookupRecords stc.processedFiles
                    (resolveModuleFilePath options.pathEnv options.cwd options.hasFsPath
                      src.location m.from') := by
                  rw [← processedFor_eq]
                  simpa using hskip
                have hwf2 : StWF options entry (setProcessed stc
                    (resolveModuleFilePath options.pathEnv options.cwd options.hasFsPath
                      src.location m.from')
                    (processedFor stc
                      (resolveModuleFilePath options.pathEnv options.cwd options.hasFsPath
                        src.location m.from') ++ [m])) := by
                  rw [StWF, setProcessed_processedFiles, processedFor_eq]
                  refine ⟨keys_nodup_setRecords _ _ _ hwfc.1,
                    nodup_pairsOf_setRecords _ _ _ hwfc.1 hwfc.2.1 hnew, ?_⟩
                  intro pm hpm
                  rcases mem_pairsOf_setRecords _ _ _ pm hwfc.1 hpm with h | h
                  · exact hwfc.2.2 pm h
                  · rw [h]
                    exact pair_mem_universe options entry src m hsrc
                      (hmem m (List.mem_cons_self m ms))
                have hlen2 : (pairsOf (setProcessed stc
                    (resolveModuleFilePath options.pathEnv options.cwd options.hasFsPath
                      src.location m.from')
                    (processedFor stc
                      (resolveModuleFilePath options.pathEnv options.cwd options.hasFsPath
                        src.location m.from') ++ [m])).processedFiles).length =
                    (pairsOf stc.processedFiles).length + 1 := by
                  rw [setProcessed_processedFiles, processedFor_eq]
                  exact length_pairsOf_setRecords _ _ _ hwfc.1
                have hle : (pairsOf (setProcessed stc
                    (resolveModuleFilePath options.pathEnv options.cwd options.hasFsPath
                      src.location m.from')
                    (processedFor stc
                      (resolveModuleFilePath options.pathEnv options.cwd options.hasFsPath
                        src.location m.from') ++ [m])).processedFiles).length ≤
                    (pairUniverse options entry).length :=
                  length_le_of_nodup_subset _ _ hwf2.2.1 hwf2.2.2
                have hbound : (pairUniverse options entry).length -
                    (pairsOf (setProcessed stc
                      (resolveModuleFilePath options.pathEnv options.cwd options.hasFsPath
                        src.location m.from')
                      (processedFor stc
                        (resolveModuleFilePath options.pathEnv options.cwd options.hasFsPath
                          src.location m.from') ++ [m])).processedFiles).length < fuel := by
                  omega
                exact ih m.imports result _ hwf2
                  (Or.inr (loadSingleFile_mem options _ result hload)) hbound hv
          | ok stm =>
            rw [hv] at hcon1
            have hcon2 : ms.foldlM (visitModule options src
                (fun imp s stx => collectDefinitions options fuel imp s stx)) stm =
                Except.error TravError.outOfFuel := hcon1
            have hstep := visitModule_ok options entry src
              (fun imp s stx => collectDefinitions options fuel imp s stx) m stc stm
              hrec hsrc (hmem m (List.mem_cons_self m ms)) hwfc hv
            have h1 := hstep.2.1
            exact ihm (fun x hx => hmem x (List.mem_cons_of_mem m hx)) stm hstep.1
              (by omega) hcon2
      exact inner rawModules hmods
        ⟨st.typeDefinitions ++ [filterImportedDefinitions imports src.definitions
            (st.allDefinitions ++ [src.definitions]) options.sort],
          st.allDefinitions ++ [src.definitions], st.processedFiles⟩ hwf hlt h3

/-- C3: an import edge whose resolved path already has an equal record in
the processed map is skipped (first conjunct); on any successful pass from
the initial state — cyclic import graphs included — each (resolved path,
record) pair is recorded at most once (the recorded edges are pairwise
distinct), and one definition list is collected for the entry plus exactly
one per recorded edge (second conjunct); and with fuel exceeding the finite
edge universe the recursion never exhausts its fuel, so the traversal
terminates (third conjunct). -/
theorem claim_C3 (options : LoadOptions) (entry : Source) (fuel : Nat)
    (imports : List String) :
    (∀ (recurse : List String → Source → TraversalState → Except TravError TraversalState)
      (stc : TraversalState) (m : RawModule),
      ((processedFor stc
        (resolveModuleFilePath options.pathEnv options.cwd options.hasFsPath
          entry.location m.from')).contains m) = true →
      visitModule options entry recurse stc m = Except.ok stc) ∧
    (∀ st', collectDefinitions options fuel imports entry initState = Except.ok st' →
      (pairsOf st'.processedFiles).Nodup ∧
      st'.allDefinitions.length = (pairsOf st'.processedFiles).length + 1) ∧
    ((pairUniverse options entry).length < fuel →
      collectDefinitions options fuel imports entry initState ≠
        Except.error TravError.outOfFuel) := by
  have h0 : (pairsOf initState.processedFiles).length = 0 := rfl
  have hwf0 : StWF options entry initState :=
    ⟨List.nodup_nil, List.nodup_nil, fun pm hpm => absurd hpm (List.not_mem_nil pm)⟩
  refine ⟨?_, ?_, ?_⟩
  · intro recurse stc m h
    unfold visitModule
    rw [if_pos h]
  · intro st' h
    have hpres := collect_preserves options entry fuel imports entry initState st' hwf0
      (Or.inl rfl) h
    refine ⟨hpres.1.2.1, ?_⟩
    have hc := hpres.2.2
    have h1 : initState.allDefinitions.length = 0 := rfl
    rw [h0, h1] at hc
    omega
  · intro hlt
    apply collect_no_fuel_out options entry fuel imports entry initState hwf0 (Or.inl rfl)
    rw [h0]
    omega

/-- A path environment whose capabilities are identities; the cyclic
witness runs with `hasFsPath = false`, so it is never consulted. -/
def cycPathEnv : PathEnv :=
  ⟨fun _ p => p, fun d => d, fun _ p => p, fun p => Except.ok p, fun _ p => p⟩

/-- File `a.graphql` of the cyclic witness: imports `B` from `b.graphql`. -/
def cycA : Source := ⟨"a.graphql", [sampleObj "A" ["a"]], "# import B from 'b.graphql'"⟩

/-- File `b.graphql` of the cyclic witness: imports `A` from `a.graphql`,
closing the cycle. -/
def cycB : Source := ⟨"b.graphql", [sampleObj "B" ["b"]], "# import A from 'a.graphql'"⟩

/-- The options of the cyclic witness: both files stored, no sorting, no
filesystem capabilities. -/
def cycOptions : LoadOptions :=
  ⟨false, cycPathEnv, "", false, [("b.graphql", cycB), ("a.graphql", cycA)]⟩

/-- The state a pass over the cyclic pair from `a.graphql` ends in. -/
def cycResult : TraversalState :=
  match collectDefinitions cycOptions 4 ["*"] cycA initState with
  | Except.ok st => st
  | Except.error _ => initState

set_option maxRecDepth 10000 in
/-- Witness for C3 on the two-file cycle `a.graphql ↔ b.graphql`: the
already-recorded edge is skipped, the successful pass records each edge
once, collects one definition list per edge plus the entry, and fuel `4`
(larger than the 3-edge universe) is never exhausted. -/
theorem claim_C3_witness :
    (visitModule cycOptions cycA (fun _ _ _ => Except.error TravError.outOfFuel)
        ⟨[], [], [("b.graphql", [⟨["B"], "b.graphql"⟩])]⟩ ⟨["B"], "b.graphql"⟩ =
      Except.ok ⟨[], [], [("b.graphql", [⟨["B"], "b.graphql"⟩])]⟩) ∧
    ((pairsOf cycResult.processedFiles).Nodup ∧
      cycResult.allDefinitions.length = (pairsOf cycResult.processedFiles).length + 1) ∧
    collectDefinitions cycOptions 4 ["*"] cycA initState ≠
      Except.error TravError.outOfFuel := by
  have h := claim_C3 cycOptions cycA 4 ["*"]
  have hrun : collectDefinitions cycOptions 4 ["*"] cycA initState =
      Except.ok cycResult := by rfl
  exact ⟨h.1 (fun _ _ _ => Except.error TravError.outOfFuel)
      ⟨[], [], [("b.graphql", [⟨["B"], "b.graphql"⟩])]⟩ ⟨["B"], "b.graphql"⟩ (by decide),
    h.2.1 cycResult hrun, h.2.2 (by decide)⟩

lemma quote_not_ws {c : Char} (h : quoteChar c = true) : wsChar c = false := by
  unfold quoteChar at h
  rcases Bool.or_eq_true_iff.mp h with h | h
  · rw [decide_eq_true_eq] at h
    rw [h]
    decide
  · rw [decide_eq_true_eq] at h
    rw [h]
    decide

lemma ws_ne_star {c : Char} (h : wsChar c = true) : c ≠ '*' := by
  intro heq
  rw [heq] at h
  exact absurd h (by decide)

lemma not_ws_dot {c : Char} (h : wsChar c = false) : dotChar c = true := by
  unfold dotChar
  rw [Bool.not_eq_true']
  simp only [Bool.or_eq_false_iff, decide_eq_false_iff_not]
  refine ⟨⟨⟨?_, ?_⟩, ?_⟩, ?_⟩ <;>
    (intro heq; rw [heq] at h; exact absurd h (by decide))

lemma quote_dot {c : Char} (h : quoteChar c = true) : dotChar c = true := by
  unfold quoteChar at h
  simp only [Bool.or_eq_true, decide_eq_true_eq] at h
  rcases h with h | h <;> rw [h] <;> decide

lemma quote_ne_star {c : Char} (h : quoteChar c = true) : c ≠ '*' := by
  unfold quoteChar at h
  simp only [Bool.or_eq_true, decide_eq_true_eq] at h
  rcases h with h | h <;> rw [h] <;> decide

lemma quote_ne_f {c : Char} (h : quoteChar c = true) : ('f' == c) = false := by
  unfold quoteChar at h
  simp only [Bool.or_eq_true, decide_eq_true_eq] at h
  rcases h with h | h <;> rw [h] <;> decide

lemma dropWhile_ws_append (a b : Str) (ha : a.all wsChar = true)
    (hb : b.dropWhile wsChar = b) : (a ++ b).dropWhile wsChar = b := by
  induction a with
  | nil => simpa using hb
  | cons c a ih =>
    simp only [List.all_cons, Bool.and_eq_true] at ha
    rw [List.cons_append, List.dropWhile_cons, ha.1]
    exact ih ha.2

lemma dropWhile_eq_self_of_not_ws (b : Str)
    (hb : ∀ c, b.head? = some c → wsChar c = false) : b.dropWhile wsChar = b := by
  cases b with
  | nil => rfl
  | cons c t =>
    rw [List.dropWhile_cons, hb c rfl]
    simp

lemma takeWhile_ws_append (a b : Str) (ha : a.all wsChar = true)
    (hb : ∀ c, b.head? = some c → wsChar c = false) :
    (a ++ b).takeWhile wsChar = a := by
  induction a with
  | nil =>
    cases b with
    | nil => rfl
    | cons c t =>
      rw [List.nil_append, List.takeWhile_cons, hb c rfl]
      simp
  | cons c a ih =>
    simp only [List.all_cons, Bool.and_eq_true] at ha
    rw [List.cons_append, List.takeWhile_cons, ha.1]
    simp only [if_pos rfl]
    rw [ih ha.2]
    simp

lemma all_of_drop {p : Char → Bool} (l : Str) (n : Nat) (h : l.all p = true) :
    (l.drop n).all p = true := by
  rw [List.all_eq_true] at h ⊢
  exact fun c hc => h c (List.mem_of_mem_drop hc)

lemma takeWhile_eq_self_of_all {p : Char → Bool} (l : Str) (h : l.all p = true) :
    l.takeWhile p = l := by
  induction l with
  | nil => rfl
  | cons c t ih =>
    simp only [List.all_cons, Bool.and_eq_true] at h
    rw [List.takeWhile_cons, h.1]
    simp only [if_pos rfl]
    rw [ih h.2]
    simp

lemma searchDesc_of_some {α : Type} (f : Nat → Option α) (n : Nat) (v : α)
    (h : f n = some v) : searchDesc f n = some v := by
  cases n with
  | zero => rw [searchDesc, h]
  | succ n =>
    rw [searchDesc, h]

lemma searchDesc_none {α : Type} (f : Nat → Option α) :
    ∀ n, (∀ m, m ≤ n → f m = none) → searchDesc f n = none := by
  intro n
  induction n with
  | zero =>
    intro h
    rw [searchDesc]
    exact h 0 (Nat.le_refl 0)
  | succ n ih =>
    intro h
    rw [searchDesc, h (n + 1) (Nat.le_refl _)]
    exact ih fun m hm => h m (Nat.le_succ_of_le hm)

lemma searchDesc_first {α : Type} (g : Nat → Option α) (v : α) :
    ∀ (n p : Nat), p ≤ n → (∀ m, p < m → m ≤ n → g m = none) → g p = some v →
    searchDesc g n = some v := by
  intro n
  induction n with
  | zero =>
    intro p hp _ hv
    rw [searchDesc]
    rw [Nat.le_zero.mp hp] at hv
    exact hv
  | succ n ih =>
    intro p hp hnone hv
    by_cases hpe : p = n + 1
    · rw [searchDesc, ← hpe, hv]
    · have hple : p ≤ n := Nat.lt_succ_iff.mp (Nat.lt_of_le_of_ne hp hpe)
      rw [searchDesc, hnone (n + 1) (Nat.lt_succ_of_le hple) (Nat.le_refl _)]
      exact ih p hple (fun m hm1 hm2 => hnone m hm1 (Nat.le_succ_of_le hm2)) hv

lemma matchContent_quoted (path : Str) (q : Char) (semi : Bool)
    (hq : quoteChar q = true) (hnl : path.all (fun c => !wsChar c) = true) :
    matchContent (path ++ [q] ++ (if semi then [';'] else [])) = some path := by
  have hdot : (path.reverse).all dotChar = true := by
    rw [List.all_eq_true] at hnl ⊢
    intro c hc
    have := hnl c (List.mem_reverse.mp hc)
    exact not_ws_dot (by simpa using this)
  cases semi with
  | false =>
    simp only [Bool.false_eq_true, if_false, List.append_nil]
    simp [matchContent, hq, hdot]
  | true =>
    simp only [if_pos rfl]
    have h1 : quoteChar ';' = false := rfl
    simp [matchContent, hq, hdot, h1]

lemma matchQuoted_run (ws3 path : Str) (q : Char) (semi : Bool)
    (h5 : ws3 ≠ []) (h6 : ws3.all wsChar = true) (hq : quoteChar q = true)
    (hnl : path.all (fun c => !wsChar c) = true) :
    matchQuoted (ws3 ++ [q] ++ path ++ [q] ++ (if semi then [';'] else [])) =
      some path := by
  have harr : ws3 ++ [q] ++ path ++ [q] ++ (if semi then [';'] else []) =
      ws3 ++ (q :: (path ++ [q] ++ (if semi then [';'] else []))) := by
    simp [List.append_assoc]
  rw [harr]
  have hdw : (ws3 ++ (q :: (path ++ [q] ++ (if semi then [';'] else [])))).dropWhile
      wsChar = q :: (path ++ [q] ++ (if semi then [';'] else [])) := by
    apply dropWhile_ws_append _ _ h6
    apply dropWhile_eq_self_of_not_ws
    intro c hc
    rw [List.head?_cons] at hc
    rw [← Option.some_inj.mp hc]
    exact quote_not_ws hq
  have hne : ¬ (((ws3 ++ (q :: (path ++ [q] ++ (if semi then [';'] else [])))).dropWhile
      wsChar).length = (ws3 ++ (q :: (path ++ [q] ++ (if semi then [';'] else [])))).length) := by
    rw [hdw]
    cases ws3 with
    | nil => exact absurd rfl h5
    | cons a t =>
      simp only [List.length_append, List.length_cons]
      omega
  unfold matchQuoted
  rw [if_neg hne, hdw]
  show (if quoteChar q = true then
      matchContent (path ++ [q] ++ (if semi then [';'] else [])) else none) = some path
  rw [if_pos hq]
  exact matchContent_quoted path q semi hq hnl

lemma matchFromSuffix_run (wsA ws3 path : Str) (q : Char) (semi : Bool)
    (hA1 : wsA ≠ []) (hA2 : wsA.all wsChar = true)
    (h5 : ws3 ≠ []) (h6 : ws3.all wsChar = true) (hq : quoteChar q = true)
    (hnl : path.all (fun c => !wsChar c) = true) :
    matchFromSuffix (wsA ++ "from".data ++ ws3 ++ [q] ++ path ++ [q] ++
      (if semi then [';'] else [])) = some path := by
  have harr : wsA ++ "from".data ++ ws3 ++ [q] ++ path ++ [q] ++
      (if semi then [';'] else []) =
      wsA ++ ("from".data ++ (ws3 ++ [q] ++ path ++ [q] ++
        (if semi then [';'] else []))) := by
    simp [List.append_assoc]
  rw [harr]
  have hdw : (wsA ++ ("from".data ++ (ws3 ++ [q] ++ path ++ [q] ++
      (if semi then [';'] else [])))).dropWhile wsChar =
      "from".data ++ (ws3 ++ [q] ++ path ++ [q] ++ (if semi then [';'] else [])) := by
    apply dropWhile_ws_append _ _ hA2
    apply dropWhile_eq_self_of_not_ws
    intro c hc
    have hfc : ('f' : Char) = c := by
      have h := hc
      show _
      exact Option.some_inj.mp h
    rw [← hfc]
    decide
  have hne : ¬ ((( wsA ++ ("from".data ++ (ws3 ++ [q] ++ path ++ [q] ++
      (if semi then [';'] else [])))).dropWhile wsChar).length =
      (wsA ++ ("from".data ++ (ws3 ++ [q] ++ path ++ [q] ++
        (if semi then [';'] else [])))).length) := by
    rw [hdw]
    cases wsA with
    | nil => exact absurd rfl hA1
    | cons a t =>
      simp only [List.length_append, List.length_cons]
      omega
  have hpre : (("from".data).isPrefixOf ("from".data ++ (ws3 ++ [q] ++ path ++ [q] ++
      (if semi then [';'] else [])))) = true := by
    rw [List.isPrefixOf_iff_prefix]
    exact List.prefix_append _ _
  unfold matchFromSuffix
  rw [if_neg hne, hdw, if_pos hpre]
  have hdrop : ("from".data ++ (ws3 ++ [q] ++ path ++ [q] ++
      (if semi then [';'] else []))).drop 4 =
      ws3 ++ [q] ++ path ++ [q] ++ (if semi then [';'] else []) := by
    rw [show ("from".data) = ['f', 'r', 'o', 'm'] from rfl]
    rw [List.cons_append, List.cons_append, List.cons_append, List.cons_append]
    rw [List.drop_succ_cons, List.drop_succ_cons, List.drop_succ_cons,
      List.drop_succ_cons, List.drop_zero]
    simp [List.append_assoc]
  rw [hdrop]
  exact matchQuoted_run ws3 path q semi h5 h6 hq hnl

lemma matchFromSuffix_no_ws (s : Str) (h : s.dropWhile wsChar = s) :
    matchFromSuffix s = none := by
  unfold matchFromSuffix
  rw [if_pos (by rw [h])]

lemma dropWhile_eq_self_of_all_not_ws (l : Str)
    (h : l.all (fun c => !wsChar c) = true) : l.dropWhile wsChar = l := by
  apply dropWhile_eq_self_of_not_ws
  intro c hc
  cases l with
  | nil => exact absurd hc (by simp)
  | cons d r =>
    rw [List.head?_cons] at hc
    rw [← Option.some_inj.mp hc]
    have := (List.all_eq_true.mp h) d (List.mem_cons_self d r)
    simpa using this

lemma matchFromSuffix_ws_quote (w T' : Str) (q : Char)
    (hw : w.all wsChar = true) (hq : quoteChar q = true) :
    matchFromSuffix (w ++ q :: T') = none := by
  have hdw : (w ++ q :: T').dropWhile wsChar = q :: T' := by
    apply dropWhile_ws_append _ _ hw
    apply dropWhile_eq_self_of_not_ws
    intro c hc
    rw [List.head?_cons] at hc
    rw [← Option.some_inj.mp hc]
    exact quote_not_ws hq
  cases w with
  | nil =>
    apply matchFromSuffix_no_ws
    simpa using hdw
  | cons a t =>
    have hne : ¬ (((a :: t ++ q :: T').dropWhile wsChar).length =
        (a :: t ++ q :: T').length) := by
      rw [hdw]
      simp only [List.length_append, List.length_cons]
      omega
    have hfrom : (("from".data).isPrefixOf (q :: T')) = false := by
      rw [show ("from".data) = 'f' :: 'r' :: 'o' :: 'm' :: [] from rfl]
      show (('f' == q) && (['r', 'o', 'm'].isPrefixOf T')) = false
      rw [quote_ne_f hq]
      simp
    unfold matchFromSuffix
    rw [if_neg hne, hdw, hfrom]
    simp

lemma matchFromSuffix_wsquote_drop (wsr T' : Str) (q : Char)
    (hw : wsr.all wsChar = true) (hq : quoteChar q = true)
    (hT : T'.all (fun c => !wsChar c) = true) :
    ∀ j, matchFromSuffix ((wsr ++ q :: T').drop j) = none := by
  intro j
  rw [List.drop_append_eq_append_drop]
  by_cases hj : j ≤ wsr.length
  · have h0 : j - wsr.length = 0 := by omega
    rw [h0, List.drop_zero]
    exact matchFromSuffix_ws_quote (wsr.drop j) T' q (all_of_drop _ _ hw) hq
  · have h1 : wsr.drop j = [] := List.drop_eq_nil_of_le (by omega)
    rw [h1, List.nil_append]
    rcases (show ∃ i, j - wsr.length = i + 1 from ⟨j - wsr.length - 1, by omega⟩) with ⟨i, hi⟩
    rw [hi, List.drop_succ_cons]
    apply matchFromSuffix_no_ws
    exact dropWhile_eq_self_of_all_not_ws _ (all_of_drop _ _ hT)

lemma matchFromSuffix_from_drop (ws3 T' : Str) (q : Char)
    (hw3 : ws3.all wsChar = true) (hq : quoteChar q = true)
    (hT : T'.all (fun c => !wsChar c) = true) :
    ∀ j, matchFromSuffix (("from".data ++ (ws3 ++ q :: T')).drop j) = none := by
  have hre : "from".data ++ (ws3 ++ q :: T') =
      'f' :: 'r' :: 'o' :: 'm' :: (ws3 ++ q :: T') := rfl
  intro j
  rw [hre]
  match j with
  | 0 =>
    apply matchFromSuffix_no_ws
    rw [List.drop_zero, List.dropWhile_cons, show wsChar 'f' = false from by decide]
    simp
  | 1 =>
    apply matchFromSuffix_no_ws
    show ('r' :: 'o' :: 'm' :: (ws3 ++ q :: T')).dropWhile wsChar = _
    rw [List.dropWhile_cons, show wsChar 'r' = false from by decide]
    simp
  | 2 =>
    apply matchFromSuffix_no_ws
    show ('o' :: 'm' :: (ws3 ++ q :: T')).dropWhile wsChar = _
    rw [List.dropWhile_cons, show wsChar 'o' = false from by decide]
    simp
  | 3 =>
    apply matchFromSuffix_no_ws
    show ('m' :: (ws3 ++ q :: T')).dropWhile wsChar = _
    rw [List.dropWhile_cons, show wsChar 'm' = false from by decide]
    simp
  | (j + 4) =>
    show matchFromSuffix ((ws3 ++ q :: T').drop j) = none
    exact matchFromSuffix_wsquote_drop ws3 T' q hw3 hq hT j

lemma dropWhile_ws_append2 (a b : Str) (ha : a.all wsChar = true) :
    (a ++ b).dropWhile wsChar = b.dropWhile wsChar := by
  induction a with
  | nil => rfl
  | cons c t ih =>
    simp only [List.all_cons, Bool.and_eq_true] at ha
    rw [List.cons_append, List.dropWhile_cons, ha.1]
    simp only [if_pos rfl]
    exact ih ha.2

lemma trimChars_append_ws (l w : Str) (hw : w.all wsChar = true) :
    trimChars (l ++ w) = trimChars l := by
  unfold trimChars
  rw [List.dropWhile_append]
  by_cases h : (l.dropWhile wsChar).isEmpty
  · rw [if_pos h]
    have h1 : w.dropWhile wsChar = [] := by
      rw [List.dropWhile_eq_nil_iff]
      intro c hc
      exact (List.all_eq_true.mp hw) c hc
    have h2 : l.dropWhile wsChar = [] := by
      cases he : l.dropWhile wsChar with
      | nil => rfl
      | cons x xs => rw [he] at h; simp [List.isEmpty] at h
    rw [h1, h2]
  · rw [if_neg h, List.reverse_append]
    have hwr : (w.reverse).all wsChar = true := by
      rw [List.all_eq_true] at hw ⊢
      exact fun c hc => hw c (List.mem_reverse.mp hc)
    rw [dropWhile_ws_append2 _ _ hwr]

lemma splitChar_ne_nil (sep : Char) : ∀ s : Str, splitChar sep s ≠ [] := by
  intro s
  cases s with
  | nil => simp [splitChar]
  | cons c cs =>
    unfold splitChar
    by_cases h : c = sep
    · rw [if_pos h]
      simp
    · rw [if_neg h]
      cases h2 : splitChar sep cs with
      | nil => simp
      | cons t ts => simp

lemma splitChar_comma_free (sep : Char) (w : Str) (hw : ∀ c ∈ w, c ≠ sep) :
    splitChar sep w = [w] := by
  induction w with
  | nil => rfl
  | cons c cs ih =>
    unfold splitChar
    rw [if_neg (hw c (List.mem_cons_self c cs))]
    rw [ih fun x hx => hw x (List.mem_cons_of_mem c hx)]

lemma splitChar_append_last (sep : Char) (sel w : Str) (hw : ∀ c ∈ w, c ≠ sep) :
    ∃ init last, splitChar sep sel = init ++ [last] ∧
      splitChar sep (sel ++ w) = init ++ [last ++ w] := by
  induction sel with
  | nil =>
    refine ⟨[], [], rfl, ?_⟩
    rw [List.nil_append, List.nil_append, splitChar_comma_free sep w hw]
  | cons c sel ih =>
    rcases ih with ⟨init, last, h1, h2⟩
    by_cases hc : c = sep
    · refine ⟨[] :: init, last, ?_, ?_⟩
      · unfold splitChar
        rw [if_pos hc, h1]
        rfl
      · rw [List.cons_append]
        unfold splitChar
        rw [if_pos hc, h2]
        rfl
    · cases init with
      | nil =>
        refine ⟨[], c :: last, ?_, ?_⟩
        · unfold splitChar
          rw [if_neg hc, h1]
          rfl
        · rw [List.cons_append]
          unfold splitChar
          rw [if_neg hc, h2]
          rfl
      | cons i0 irest =>
        refine ⟨(c :: i0) :: irest, last, ?_, ?_⟩
        · unfold splitChar
          rw [if_neg hc, h1]
          rfl
        · rw [List.cons_append]
          unfold splitChar
          rw [if_neg hc, h2]
          rfl

lemma map_trim_splitChar_append_ws (sel w : Str) (hsel : sel ≠ [])
    (hw : w.all wsChar = true) :
    (splitChar ',' (sel ++ w)).map (fun d => trimChars d) =
      (splitChar ',' sel).map (fun d => trimChars d) := by
  have hwc : ∀ c ∈ w, c ≠ ',' := by
    intro c hc
    have := (List.all_eq_true.mp hw) c hc
    intro heq
    rw [heq] at this
    exact absurd this (by decide)
  rcases splitChar_append_last ',' sel w hwc with ⟨init, last, h1, h2⟩
  rw [h1, h2, List.map_append, List.map_append]
  congr 1
  simp only [List.map_cons, List.map_nil]
  rw [trimChars_append_ws last w hw]

/-- Modelled from the spec: the character set of a bare name in an import
selector (`[Type]` / `[Field]` identifiers). -/
def specNameChar (c : Char) : Bool := c.isAlpha || c.isDigit || c = '_'

/-- Modelled from the spec: a bare name is a nonempty run of name
characters. -/
def specName (s : Str) : Bool := !s.isEmpty && s.all specNameChar

/-- Modelled from the spec: a selector is a bare name or a `Name.field`
pair. -/
def specSelector (s : Str) : Bool :=
  match splitChar '.' s with
  | [n] => specName n
  | [n, f] => specName n && specName f
  | _ => false

/-- Modelled from the spec: the selector text of the FROM form is `*` or a
comma-separated list whose items are selectors after whitespace
trimming. -/
def specSelectors (s : Str) : Bool :=
  (s == ['*']) || (splitChar ',' s).all (fun x => specSelector (trimChars x))

lemma dropWhile_ws_last (l : Str) (c : Char) (hc : wsChar c = false) :
    ∃ m, (l ++ [c]).dropWhile wsChar = m ++ [c] := by
  induction l with
  | nil =>
    refine ⟨[], ?_⟩
    show List.dropWhile wsChar [c] = [] ++ [c]
    rw [List.dropWhile_cons, hc]
    simp
  | cons a t ih =>
    rw [List.cons_append, List.dropWhile_cons]
    by_cases ha : wsChar a = true
    · rw [ha]
      simpa using ih
    · rw [Bool.eq_false_iff.mpr ha]
      exact ⟨a :: t, by simp⟩

lemma trimChars_cons_not_ws (c : Char) (t : Str) (hc : wsChar c = false) :
    ∃ m, trimChars (c :: t) = c :: m := by
  unfold trimChars
  rw [List.dropWhile_cons, hc]
  simp only [Bool.false_eq_true, if_false]
  have : (c :: t).reverse = t.reverse ++ [c] := by simp
  rw [this]
  rcases dropWhile_ws_last t.reverse c hc with ⟨m, hm⟩
  rw [hm]
  exact ⟨m.reverse, by simp⟩

lemma splitChar_cons_ne (sep c : Char) (cs : Str) (h : ¬ c = sep) :
    ∃ t' ts', splitChar sep (c :: cs) = (c :: t') :: ts' := by
  unfold splitChar
  rw [if_neg h]
  cases h2 : splitChar sep cs with
  | nil => exact ⟨[], [], rfl⟩
  | cons t ts => exact ⟨t, ts, rfl⟩

lemma specName_head (c : Char) (m : Str) (h : specName (c :: m) = true) :
    specNameChar c = true := by
  unfold specName at h
  simp only [Bool.and_eq_true, List.all_cons] at h
  exact h.2.1

lemma specSelectors_head_ne_star (sel : Str) (c : Char)
    (h10 : specSelectors sel = true) (h11 : sel ≠ ['*'])
    (hhd : sel.head? = some c) (hcw : wsChar c = false) : c ≠ '*' := by
  cases sel with
  | nil => exact absurd hhd (by simp)
  | cons c' t =>
    rw [List.head?_cons] at hhd
    have hcc : c' = c := Option.some_inj.mp hhd
    subst hcc
    by_cases hcomma : c' = ','
    · rw [hcomma]
      decide
    · unfold specSelectors at h10
      have hbeq : ((c' :: t) == ['*']) = false := by
        rw [beq_eq_false_iff_ne]
        exact h11
      rw [hbeq, Bool.false_or] at h10
      rcases splitChar_cons_ne ',' c' t hcomma with ⟨t', ts', hsp⟩
      rw [hsp, List.all_cons, Bool.and_eq_true] at h10
      rcases trimChars_cons_not_ws c' t' hcw with ⟨m, hm⟩
      have hselr := h10.1
      rw [hm] at hselr
      by_cases hdot : c' = '.'
      · rw [hdot]
        decide
      · unfold specSelector at hselr
        rcases splitChar_cons_ne '.' c' m hdot with ⟨m', ms', hsp2⟩
        rw [hsp2] at hselr
        have hnc : specNameChar c' = true := by
          cases ms' with
          | nil => exact specName_head c' m' hselr
          | cons f fs =>
            cases fs with
            | nil =>
              rw [Bool.and_eq_true] at hselr
              exact specName_head c' m' hselr.1
            | cons g gs => exact absurd hselr (by simp)
        intro hstar
        rw [hstar] at hnc
        exact absurd hnc (by decide)

lemma starAlt_star_some (T path : Str) (h : matchFromSuffix T = some path) :
    starAlt ('*' :: T) = some ⟨['*'], none, path⟩ := by
  show (match matchFromSuffix T with
    | some frm => some (⟨['*'], none, frm⟩ : FromMatch)
    | none => none) = _
  rw [h]

lemma starAlt_ne (c : Char) (T : Str) (h : ¬ c = '*') : starAlt (c :: T) = none := by
  unfold starAlt
  split
  · rename_i heq
    rw [List.cons.injEq] at heq
    exact absurd heq.1 h
  · rfl

lemma starAlt_nil : starAlt [] = none := rfl

lemma dotAlt_some (r : Str) (p : Nat) (path : Str)
    (h : matchFromSuffix (r.drop p) = some path) :
    dotAlt r p = some ⟨r.take p, some (r.take p), path⟩ := by
  unfold dotAlt
  rw [h]

lemma dotAlt_none (r : Str) (p : Nat) (h : matchFromSuffix (r.drop p) = none) :
    dotAlt r p = none := by
  unfold dotAlt
  rw [h]

lemma matchImportFrom_star (ws1 ws2 ws3 path : Str) (q : Char) (semi : Bool)
    (h1 : ws1 ≠ []) (h2 : ws1.all wsChar = true)
    (h3 : ws2 ≠ []) (h4 : ws2.all wsChar = true)
    (h5 : ws3 ≠ []) (h6 : ws3.all wsChar = true)
    (hq : quoteChar q = true) (hnl : path.all (fun c => !wsChar c) = true) :
    matchImportFrom ("import".data ++ (ws1 ++ '*' ::
      (ws2 ++ "from".data ++ ws3 ++ [q] ++ path ++ [q] ++
        (if semi then [';'] else [])))) = some ⟨['*'], none, path⟩ := by
  unfold matchImportFrom
  have hpre : (("import".data).isPrefixOf ("import".data ++ (ws1 ++ '*' ::
      (ws2 ++ "from".data ++ ws3 ++ [q] ++ path ++ [q] ++
        (if semi then [';'] else []))))) = true := by
    rw [List.isPrefixOf_iff_prefix]
    exact List.prefix_append _ _
  rw [if_pos hpre]
  have hd6 : ("import".data ++ (ws1 ++ '*' ::
      (ws2 ++ "from".data ++ ws3 ++ [q] ++ path ++ [q] ++
        (if semi then [';'] else [])))).drop 6 = ws1 ++ '*' ::
      (ws2 ++ "from".data ++ ws3 ++ [q] ++ path ++ [q] ++
        (if semi then [';'] else [])) := rfl
  rw [hd6]
  have htw : (ws1 ++ '*' :: (ws2 ++ "from".data ++ ws3 ++ [q] ++ path ++ [q] ++
      (if semi then [';'] else []))).takeWhile wsChar = ws1 := by
    apply takeWhile_ws_append _ _ h2
    intro c hc
    rw [List.head?_cons] at hc
    rw [← Option.some_inj.mp hc]
    decide
  rw [htw]
  apply searchDesc_of_some
  unfold fromAtK
  have hlen0 : ¬ (ws1.length = 0) := by
    cases ws1 with
    | nil => exact absurd rfl h1
    | cons a t => simp
  rw [if_neg hlen0, hd6, List.drop_left]
  rw [starAlt_star_some _ path (matchFromSuffix_run ws2 ws3 path q semi h3 h4 h5 h6 hq hnl)]

lemma quote_ne_nl {c : Char} (h : quoteChar c = true) : c ≠ '\n' := by
  unfold quoteChar at h
  simp only [Bool.or_eq_true, decide_eq_true_eq] at h
  rcases h with h | h <;> rw [h] <;> decide
lemma matchImportFrom_list (ws1 sel ws2' ws3 path : Str) (wl q : Char) (semi : Bool)
    (h1 : ws1 ≠ []) (h2 : ws1.all wsChar = true)
    (h3 : ws2'.all wsChar = true) (h3nl : ws2'.all dotChar = true)
    (h4 : wsChar wl = true) (h4nl : dotChar wl = true)
    (h5 : ws3 ≠ []) (h6 : ws3.all wsChar = true)
    (h6nl : ws3.all dotChar = true)
    (hq : quoteChar q = true) (hnl : path.all (fun c => !wsChar c) = true)
    (hselne : sel ≠ [])
    (hselhd : ∀ c, sel.head? = some c → wsChar c = false)
    (hselstar : ∀ c, sel.head? = some c → c ≠ '*')
    (hselnl : sel.all dotChar = true) :
    matchImportFrom ("import".data ++ (ws1 ++ ((sel ++ ws2') ++ ([wl] ++
      ("from".data ++ (ws3 ++ q :: (path ++ [q] ++ (if semi then [';'] else [])))))))) =
      some ⟨sel ++ ws2', some (sel ++ ws2'), path⟩ := by
  have hpnl : path.all dotChar = true := by
    rw [List.all_eq_true] at hnl ⊢
    intro c hc
    exact not_ws_dot (by simpa using hnl c hc)
  have hTall : (path ++ [q] ++ (if semi then [';'] else [])).all
      (fun c => !wsChar c) = true := by
    simp only [List.all_append, Bool.and_eq_true]
    refine ⟨⟨hnl, ?_⟩, ?_⟩
    · simp [quote_not_ws hq]
    · cases semi <;> decide
  have hrnl : (((sel ++ ws2') ++ ([wl] ++ ("from".data ++ (ws3 ++ q ::
      (path ++ [q] ++ (if semi then [';'] else [])))))).all dotChar) = true := by
    simp only [List.all_append, List.all_cons, Bool.and_eq_true]
    refine ⟨⟨hselnl, h3nl⟩, ⟨by simp [h4nl], ?_, ?_, ?_⟩⟩
    · decide
    · exact h6nl
    · refine ⟨by simp [quote_dot hq], ⟨⟨hpnl, by simp [quote_dot hq]⟩, ?_⟩⟩
      cases semi <;> decide
  unfold matchImportFrom
  have hpre : (("import".data).isPrefixOf ("import".data ++ (ws1 ++ ((sel ++ ws2') ++
      ([wl] ++ ("from".data ++ (ws3 ++ q :: (path ++ [q] ++
        (if semi then [';'] else []))))))))) = true := by
    rw [List.isPrefixOf_iff_prefix]
    exact List.prefix_append _ _
  rw [if_pos hpre]
  have hd6 : ("import".data ++ (ws1 ++ ((sel ++ ws2') ++ ([wl] ++
      ("from".data ++ (ws3 ++ q :: (path ++ [q] ++
        (if semi then [';'] else [])))))))).drop 6 = ws1 ++ ((sel ++ ws2') ++ ([wl] ++
      ("from".data ++ (ws3 ++ q :: (path ++ [q] ++
        (if semi then [';'] else [])))))) := rfl
  rw [hd6]
  have hheadr : ∀ c, ((sel ++ ws2') ++ ([wl] ++ ("from".data ++ (ws3 ++ q ::
      (path ++ [q] ++ (if semi then [';'] else [])))))).head? = some c →
      wsChar c = false ∧ c ≠ '*' := by
    intro c hc
    cases sel with
    | nil => exact absurd rfl hselne
    | cons c0 st =>
      have : ((c0 :: st ++ ws2') ++ ([wl] ++ ("from".data ++ (ws3 ++ q ::
          (path ++ [q] ++ (if semi then [';'] else [])))))).head? = some c0 := by
        simp
      rw [this] at hc
      rw [← Option.some_inj.mp hc]
      exact ⟨hselhd c0 rfl, hselstar c0 rfl⟩
  have htw : (ws1 ++ ((sel ++ ws2') ++ ([wl] ++ ("from".data ++ (ws3 ++ q ::
      (path ++ [q] ++ (if semi then [';'] else []))))))).takeWhile wsChar = ws1 := by
    apply takeWhile_ws_append _ _ h2
    intro c hc
    exact (hheadr c hc).1
  rw [htw]
  apply searchDesc_of_some
  unfold fromAtK
  have hlen0 : ¬ (ws1.length = 0) := by
    cases ws1 with
    | nil => exact absurd rfl h1
    | cons a t => simp
  rw [if_neg hlen0, hd6, List.drop_left]
  have hstar : starAlt ((sel ++ ws2') ++ ([wl] ++ ("from".data ++ (ws3 ++ q ::
      (path ++ [q] ++ (if semi then [';'] else [])))))) = none := by
    cases sel with
    | nil => exact absurd rfl hselne
    | cons c0 st =>
      have hass : ((c0 :: st ++ ws2') ++ ([wl] ++ ("from".data ++ (ws3 ++ q ::
          (path ++ [q] ++ (if semi then [';'] else [])))))) = c0 :: ((st ++ ws2') ++
          ([wl] ++ ("from".data ++ (ws3 ++ q :: (path ++ [q] ++
            (if semi then [';'] else [])))))) := by
        simp
      rw [hass]
      exact starAlt_ne c0 _ (hselstar c0 rfl)
  rw [hstar]
  rw [takeWhile_eq_self_of_all _ hrnl]
  apply searchDesc_first _ _ _ ((sel ++ ws2').length)
  · rw [List.length_append, List.length_append, List.length_append]
    omega
  · intro m hm1 hm2
    unfold dotCand
    by_cases hguard : m > (((sel ++ ws2') ++ ([wl] ++ ("from".data ++ (ws3 ++ q ::
        (path ++ [q] ++ (if semi then [';'] else [])))))).takeWhile
          dotChar).length
    · rw [if_pos hguard]
    · rw [if_neg hguard]
      apply dotAlt_none
      have hdropm : ((sel ++ ws2') ++ ([wl] ++ ("from".data ++ (ws3 ++ q ::
          (path ++ [q] ++ (if semi then [';'] else [])))))).drop m =
          ("from".data ++ (ws3 ++ q :: (path ++ [q] ++
            (if semi then [';'] else [])))).drop (m - ((sel ++ ws2').length + 1)) := by
        rw [List.drop_append_eq_append_drop]
        rw [List.drop_eq_nil_of_le (by omega), List.nil_append]
        rw [show ([wl] ++ ("from".data ++ (ws3 ++ q :: (path ++ [q] ++
          (if semi then [';'] else []))))) = wl :: ("from".data ++ (ws3 ++ q ::
          (path ++ [q] ++ (if semi then [';'] else [])))) from rfl]
        rcases (show ∃ i, m - (sel ++ ws2').length = i + 1 from
          ⟨m - (sel ++ ws2').length - 1, by omega⟩) with ⟨i, hi⟩
        rw [hi, List.drop_succ_cons]
        congr 1
        omega
      rw [hdropm]
      exact matchFromSuffix_from_drop ws3 (path ++ [q] ++ (if semi then [';'] else []))
        q h6 hq hTall _
  · unfold dotCand
    rw [if_neg (by
      rw [takeWhile_eq_self_of_all _ hrnl, List.length_append, List.length_append,
        List.length_append]
      omega)]
    have hassoc : ((sel ++ ws2') ++ ([wl] ++ ("from".data ++ (ws3 ++ q ::
        (path ++ [q] ++ (if semi then [';'] else [])))))).drop (sel ++ ws2').length =
        [wl] ++ ("from".data ++ (ws3 ++ q :: (path ++ [q] ++
          (if semi then [';'] else [])))) := List.drop_left _ _
    have htake : ((sel ++ ws2') ++ ([wl] ++ ("from".data ++ (ws3 ++ q ::
        (path ++ [q] ++ (if semi then [';'] else [])))))).take (sel ++ ws2').length =
        sel ++ ws2' := List.take_left _ _
    have hshape : [wl] ++ ("from".data ++ (ws3 ++ q :: (path ++ [q] ++
        (if semi then [';'] else [])))) = [wl] ++ "from".data ++ ws3 ++ [q] ++ path ++
        [q] ++ (if semi then [';'] else []) := by
      simp [List.append_assoc]
    have hsome : matchFromSuffix (((sel ++ ws2') ++ ([wl] ++ ("from".data ++ (ws3 ++ q ::
        (path ++ [q] ++ (if semi then [';'] else [])))))).drop (sel ++ ws2').length) =
        some path := by
      rw [hassoc, hshape]
      exact matchFromSuffix_run [wl] ws3 path q semi (by simp) (by simp [h4]) h5 h6 hq hnl
    rw [dotAlt_some _ _ path hsome, htake]

lemma starAlt_none_of (s : Str)
    (h : ∀ rest, s = '*' :: rest → matchFromSuffix rest = none) : starAlt s = none := by
  unfold starAlt
  split
  · rename_i rest
    rw [h rest rfl]
  · rfl

lemma matchImportFrom_default_none (ws1 path : Str) (q : Char) (semi : Bool)
    (h1 : ws1 ≠ []) (h2 : ws1.all wsChar = true)
    (hq : quoteChar q = true) (hnl : path.all (fun c => !wsChar c) = true) :
    matchImportFrom ("import".data ++ (ws1 ++ q :: (path ++ [q] ++
      (if semi then [';'] else [])))) = none := by
  have hTall : (path ++ [q] ++ (if semi then [';'] else [])).all
      (fun c => !wsChar c) = true := by
    simp only [List.all_append, Bool.and_eq_true]
    refine ⟨⟨hnl, ?_⟩, ?_⟩
    · simp [quote_not_ws hq]
    · cases semi <;> decide
  have hzone : ∀ j, matchFromSuffix ((ws1 ++ q :: (path ++ [q] ++
      (if semi then [';'] else []))).drop j) = none :=
    matchFromSuffix_wsquote_drop ws1 _ q h2 hq hTall
  unfold matchImportFrom
  have hpre : (("import".data).isPrefixOf ("import".data ++ (ws1 ++ q :: (path ++ [q] ++
      (if semi then [';'] else []))))) = true := by
    rw [List.isPrefixOf_iff_prefix]
    exact List.prefix_append _ _
  rw [if_pos hpre]
  have hd6 : ("import".data ++ (ws1 ++ q :: (path ++ [q] ++
      (if semi then [';'] else [])))).drop 6 = ws1 ++ q :: (path ++ [q] ++
      (if semi then [';'] else [])) := rfl
  rw [hd6]
  apply searchDesc_none
  intro k _
  unfold fromAtK
  by_cases hk0 : k = 0
  · rw [if_pos hk0]
  · rw [if_neg hk0, hd6]
    have hstar : starAlt ((ws1 ++ q :: (path ++ [q] ++
        (if semi then [';'] else []))).drop k) = none := by
      apply starAlt_none_of
      intro rest heq
      have h2' : ((ws1 ++ q :: (path ++ [q] ++
          (if semi then [';'] else []))).drop k).drop 1 = rest := by
        rw [heq]
        rfl
      rw [← h2', List.drop_drop]
      exact hzone _
    rw [hstar]
    apply searchDesc_none
    intro p _
    unfold dotCand
    by_cases hg : p > ((((ws1 ++ q :: (path ++ [q] ++
        (if semi then [';'] else [])))).drop k).takeWhile dotChar).length
    · rw [if_pos hg]
    · rw [if_neg hg]
      apply dotAlt_none
      rw [List.drop_drop]
      exact hzone _

lemma matchImportDefault_some (ws1 path : Str) (q : Char) (semi : Bool)
    (h1 : ws1 ≠ []) (h2 : ws1.all wsChar = true)
    (hq : quoteChar q = true) (hnl : path.all (fun c => !wsChar c) = true) :
    matchImportDefault ("import".data ++ (ws1 ++ q :: (path ++ [q] ++
      (if semi then [';'] else [])))) = some path := by
  unfold matchImportDefault
  have hpre : (("import".data).isPrefixOf ("import".data ++ (ws1 ++ q :: (path ++ [q] ++
      (if semi then [';'] else []))))) = true := by
    rw [List.isPrefixOf_iff_prefix]
    exact List.prefix_append _ _
  rw [if_pos hpre]
  have hd6 : ("import".data ++ (ws1 ++ q :: (path ++ [q] ++
      (if semi then [';'] else [])))).drop 6 = ws1 ++ q :: (path ++ [q] ++
      (if semi then [';'] else [])) := rfl
  rw [hd6]
  have hshape : ws1 ++ q :: (path ++ [q] ++ (if semi then [';'] else [])) =
      ws1 ++ [q] ++ path ++ [q] ++ (if semi then [';'] else []) := by
    simp [List.append_assoc]
  rw [hshape]
  exact matchQuoted_run ws1 path q semi h1 h2 hq hnl

/-- Modelled from the spec: strip the optional trailing semicolon of an
incoming line before checking the quoted path. -/
def stripSemi (s : Str) : Str :=
  match s.reverse with
  | ';' :: r => r.reverse
  | _ => s

/-- Modelled from the spec: a path character — the quotes must delimit the
path, so quote characters are excluded, and a path contains no
whitespace. -/
def specPathChar (c : Char) : Bool := !wsChar c && !quoteChar c

/-- Modelled from the spec: the accepted grammar form
`import <selectors> from '<path>'` — selectors `*` or a comma-separated
whitespace-trimmed list of bare names or `Name.field` pairs, a BALANCED
quote pair around a nonempty path, and an optional trailing semicolon.
Decomposed deterministically from the right, since a path contains no
quote characters. -/
def specFromForm (s : Str) : Bool :=
  if ("import".data).isPrefixOf s then
    (let r0 := s.drop 6
     let ws1 := r0.takeWhile wsChar
     if ws1 = ([] : Str) then false
     else
       match (stripSemi (r0.drop ws1.length)).reverse with
       | [] => false
       | qc :: rest =>
         if quoteChar qc then
           (let pathRev := rest.takeWhile specPathChar
            match rest.drop pathRev.length with
            | [] => false
            | q2 :: rest3 =>
              if q2 = qc then
                if pathRev = ([] : Str) then false
                else
                  (let ws3r := rest3.takeWhile wsChar
                   if ws3r = ([] : Str) then false
                   else
                     (let rest4 := rest3.drop ws3r.length
                      if ("morf".data).isPrefixOf rest4 then
                        (let rest5 := rest4.drop 4
                         let ws2r := rest5.takeWhile wsChar
                         if ws2r = ([] : Str) then false
                         else specSelectors (rest5.drop ws2r.length).reverse)
                      else false))
              else false)
         else false)
  else false

/-- Modelled from the spec: the accepted grammar form `import '<path>'`
(wildcard import) — a BALANCED quote pair around a nonempty path, optional
trailing semicolon. -/
def specDefaultForm (s : Str) : Bool :=
  if ("import".data).isPrefixOf s then
    (let r0 := s.drop 6
     let ws1 := r0.takeWhile wsChar
     if ws1 = ([] : Str) then false
     else
       match stripSemi (r0.drop ws1.length) with
       | [] => false
       | qc :: rest =>
         if quoteChar qc then
           (match rest.reverse with
            | [] => false
            | q2 :: pathRev =>
              (q2 = qc) && (!pathRev.isEmpty) && pathRev.all specPathChar)
         else false)
  else false

/-- C6 (amended): every line rendered in either accepted grammar form
parses to the expected record — conjunct 1: the wildcard FROM form;
conjunct 2: the selector-list FROM form (the captured selector text
absorbs all but one character of the whitespace run before `from`, which
trimming removes again); conjunct 3: the default form; conjunct 4: a line
matched by neither of the code's two import regexes raises the error that
echoes the offending line and the accepted grammar.  (The converse of the
original claim fails: the regexes also accept lines outside both grammar
forms, see the counterexample.) -/
theorem claim_C6 :
    (∀ (ws1 ws2 ws3 path : Str) (q : Char) (semi : Bool),
      ws1 ≠ [] → ws1.all wsChar = true → ws2 ≠ [] → ws2.all wsChar = true →
      ws3 ≠ [] → ws3.all wsChar = true → quoteChar q = true →
      path.all (fun c => !wsChar c) = true → path ≠ [] →
      parseImportLine (String.mk ("import".data ++ (ws1 ++ '*' ::
        (ws2 ++ "from".data ++ ws3 ++ [q] ++ path ++ [q] ++
          (if semi then [';'] else []))))) =
        Except.ok ⟨["*"], String.mk path⟩) ∧
    (∀ (ws1 sel ws2' ws3 path : Str) (wl q : Char) (semi : Bool),
      ws1 ≠ [] → ws1.all wsChar = true →
      ws2'.all wsChar = true → ws2'.all dotChar = true →
      wsChar wl = true → dotChar wl = true →
      ws3 ≠ [] → ws3.all wsChar = true → ws3.all dotChar = true →
      quoteChar q = true → path.all (fun c => !wsChar c) = true → path ≠ [] →
      sel ≠ [] → specSelectors sel = true → sel ≠ ['*'] →
      (∀ c, sel.head? = some c → wsChar c = false) →
      sel.all dotChar = true →
      parseImportLine (String.mk ("import".data ++ (ws1 ++ ((sel ++ ws2') ++ ([wl] ++
        ("from".data ++ (ws3 ++ q :: (path ++ [q] ++
          (if semi then [';'] else []))))))))) =
        Except.ok ⟨(splitChar ',' sel).map (fun d => String.mk (trimChars d)),
          String.mk path⟩) ∧
    (∀ (ws1 path : Str) (q : Char) (semi : Bool),
      ws1 ≠ [] → ws1.all wsChar = true → quoteChar q = true →
      path.all (fun c => !wsChar c) = true →
      parseImportLine (String.mk ("import".data ++ (ws1 ++ q :: (path ++ [q] ++
        (if semi then [';'] else []))))) = Except.ok ⟨["*"], String.mk path⟩) ∧
    (∀ line : String, matchImportFrom line.data = none →
      matchImportDefault line.data = none →
      parseImportLine line = Except.error (importErrorMessage line)) := by
  refine ⟨?_, ?_, ?_, ?_⟩
  · intro ws1 ws2 ws3 path q semi h1 h2 h3 h4 h5 h6 hq hnl hpne
    unfold parseImportLine
    rw [show (String.mk ("import".data ++ (ws1 ++ '*' ::
      (ws2 ++ "from".data ++ ws3 ++ [q] ++ path ++ [q] ++
        (if semi then [';'] else []))))).data = "import".data ++ (ws1 ++ '*' ::
      (ws2 ++ "from".data ++ ws3 ++ [q] ++ path ++ [q] ++
        (if semi then [';'] else []))) from rfl]
    rw [matchImportFrom_star ws1 ws2 ws3 path q semi h1 h2 h3 h4 h5 h6 hq hnl]
    show (if path ≠ [] then
        Except.ok (⟨if (['*'] : Str) = ['*'] then ["*"]
          else (splitChar ',' ((none : Option Str).getD [])).map
            (fun d => String.mk (trimChars d)), String.mk path⟩ : RawModule)
      else Except.error (importErrorMessage (String.mk ("import".data ++ (ws1 ++ '*' ::
        (ws2 ++ "from".data ++ ws3 ++ [q] ++ path ++ [q] ++
          (if semi then [';'] else []))))))) = Except.ok ⟨["*"], String.mk path⟩
    rw [if_pos hpne]
    simp
  · intro ws1 sel ws2' ws3 path wl q semi h1 h2 h3 h3nl h4 h4nl h5 h6 h6nl hq hnl hpne
      hselne hss hsne hselhd hselnl
    have hselstar : ∀ c, sel.head? = some c → c ≠ '*' := by
      intro c hc
      exact specSelectors_head_ne_star sel c hss hsne hc (hselhd c hc)
    unfold parseImportLine
    rw [show (String.mk ("import".data ++ (ws1 ++ ((sel ++ ws2') ++ ([wl] ++
      ("from".data ++ (ws3 ++ q :: (path ++ [q] ++
        (if semi then [';'] else []))))))))).data = "import".data ++ (ws1 ++
      ((sel ++ ws2') ++ ([wl] ++ ("from".data ++ (ws3 ++ q :: (path ++ [q] ++
        (if semi then [';'] else []))))))) from rfl]
    rw [matchImportFrom_list ws1 sel ws2' ws3 path wl q semi h1 h2 h3 h3nl h4 h4nl h5 h6
      h6nl hq hnl hselne hselhd hselstar hselnl]
    show (if path ≠ [] then
        Except.ok (⟨if sel ++ ws2' = ['*'] then ["*"]
          else (splitChar ',' ((some (sel ++ ws2') : Option Str).getD [])).map
            (fun d => String.mk (trimChars d)), String.mk path⟩ : RawModule)
      else Except.error (importErrorMessage (String.mk ("import".data ++ (ws1 ++
        ((sel ++ ws2') ++ ([wl] ++ ("from".data ++ (ws3 ++ q :: (path ++ [q] ++
          (if semi then [';'] else []))))))))))) =
      Except.ok ⟨(splitChar ',' sel).map (fun d => String.mk (trimChars d)),
        String.mk path⟩
    rw [if_pos hpne]
    have hm1ne : ¬ (sel ++ ws2' = ['*']) := by
      intro he
      cases sel with
      | nil => exact absurd rfl hselne
      | cons c0 st =>
        cases st with
        | nil =>
          rw [List.singleton_append] at he
          rw [List.cons.injEq] at he
          have hx : c0 = '*' := he.1
          exact absurd hx (hselstar c0 rfl)
        | cons d0 st' =>
          have := congrArg List.length he
          simp at this
    rw [if_neg hm1ne]
    have hmap : (splitChar ',' ((some (sel ++ ws2') : Option Str).getD [])).map
        (fun d => String.mk (trimChars d)) =
        (splitChar ',' sel).map (fun d => String.mk (trimChars d)) := by
      have h := map_trim_splitChar_append_ws sel ws2' hselne h3
      simpa [Function.comp] using congrArg (List.map String.mk) h
    rw [hmap]
  · intro ws1 path q semi h1 h2 hq hnl
    unfold parseImportLine
    rw [show (String.mk ("import".data ++ (ws1 ++ q :: (path ++ [q] ++
      (if semi then [';'] else []))))).data = "import".data ++ (ws1 ++ q ::
      (path ++ [q] ++ (if semi then [';'] else []))) from rfl]
    rw [matchImportFrom_default_none ws1 path q semi h1 h2 hq hnl]
    show (match matchImportDefault ("import".data ++ (ws1 ++ q :: (path ++ [q] ++
        (if semi then [';'] else [])))) with
      | some frm => Except.ok (⟨["*"], String.mk frm⟩ : RawModule)
      | none => Except.error (importErrorMessage (String.mk ("import".data ++ (ws1 ++
          q :: (path ++ [q] ++ (if semi then [';'] else []))))))) =
      Except.ok ⟨["*"], String.mk path⟩
    rw [matchImportDefault_some ws1 path q semi h1 h2 hq hnl]
  · intro line hf hd
    unfold parseImportLine
    rw [hf]
    show (match matchImportDefault line.data with
      | some frm => Except.ok (⟨["*"], String.mk frm⟩ : RawModule)
      | none => Except.error (importErrorMessage line)) =
      Except.error (importErrorMessage line)
    rw [hd]

/-- C6 counterexample: `import A from 'x"` (mismatched quote pair) matches
neither accepted grammar form, yet the parser does not raise — the FROM
regex accepts the unbalanced pair and the line parses to imports `[A]`,
from `x`. -/
theorem claim_C6_counterexample :
    specFromForm ("import A from 'x\"".data) = false ∧
    specDefaultForm ("import A from 'x\"".data) = false ∧
    parseImportLine "import A from 'x\"" = Except.ok ⟨["A"], "x"⟩ := by
  refine ⟨by decide, by decide, by decide⟩

/-- Witness for the amended C6 on concrete lines of each shape: a wildcard
FROM import, a selector-list FROM import with a trailing semicolon, a
default import, and a line matching neither regex. -/
theorem claim_C6_witness :
    parseImportLine "import * from 'a.graphql'" =
      Except.ok ⟨["*"], "a.graphql"⟩ ∧
    parseImportLine "import A, B.f from 'f.graphql';" =
      Except.ok ⟨["A", "B.f"], "f.graphql"⟩ ∧
    parseImportLine "import \"x\"" = Except.ok ⟨["*"], "x"⟩ ∧
    parseImportLine "hello" = Except.error (importErrorMessage "hello") := by
  have h := claim_C6
  refine ⟨?_, ?_, ?_, ?_⟩
  · rw [show ("import * from 'a.graphql'" : String) = String.mk ("import".data ++
      ((" ".data) ++ '*' :: ((" ".data) ++ "from".data ++ (" ".data) ++ ['\''] ++
        ("a.graphql".data) ++ ['\''] ++ (if false then [';'] else [])))) from by decide]
    exact (h.1 (" ".data) (" ".data) (" ".data) ("a.graphql".data) '\'' false
      (by decide) (by decide) (by decide) (by decide) (by decide) (by decide)
      (by decide) (by decide) (by decide)).trans (by decide)
  · rw [show ("import A, B.f from 'f.graphql';" : String) = String.mk ("import".data ++
      ((" ".data) ++ ((("A, B.f".data) ++ ([] : Str)) ++ ([' '] ++ ("from".data ++
        ((" ".data) ++ '\'' :: (("f.graphql".data) ++ ['\''] ++
          (if true then [';'] else [])))))))) from by decide]
    exact (h.2.1 (" ".data) ("A, B.f".data) ([] : Str) (" ".data) ("f.graphql".data)
      ' ' '\'' true (by decide) (by decide) (by decide) (by decide) (by decide)
      (by decide) (by decide) (by decide) (by decide) (by decide) (by decide)
      (by decide) (by decide) (by decide) (by decide)
      (fun c hc => by rw [← Option.some_inj.mp hc]; decide)
      (by decide)).trans (by decide)
  · rw [show ("import \"x\"" : String) = String.mk ("import".data ++
      ((" ".data) ++ '\"' :: (("x".data) ++ ['\"'] ++
        (if false then [';'] else [])))) from by decide]
    exact (h.2.2.1 (" ".data) ("x".data) '\"' false (by decide) (by decide)
      (by decide) (by decide)).trans (by decide)
  · exact h.2.2.2 "hello" (by decide) (by decide)
